import Mathlib

/-! # froot: IP framing and fragmentation

A shallow embedding of `src/server.cc` (`Server::send`, `sendfrag_ipv4`,
`Server::handle_packet`) and `src/netserver/ipv6.cc` (`payload_length`,
`Netserver_IPv6::send_fragment`, `Netserver_IPv6::send`, `match_exact`,
`match_solicited`, `Netserver_IPv6::match`, `skip_extension_headers`,
`Netserver_IPv6::recv`, the constructor), followed by the properties
established about them.

Conventions.
* `size_t` is a natural number below `2^64`, `unsigned` one below `2^32`,
  `uint16_t` one below `2^16`; every C++ operation that can leave the range is
  written with its explicit `% 2^w`.
* A pointer is a natural-number address below `2^64`, and pointer addition
  wraps like `size_t` addition; a byte is a natural number.
* Multi-byte header fields are held by their numeric value (what `ntohs` of the
  stored field gives), so `htons`/`ntohs` do not appear.
-/

namespace Froot

/-! ## Buffer segment list -/

/-- One `struct iovec`: the address of a region and its length in bytes. -/
structure iovec where
  iov_base : Nat
  iov_len : Nat
deriving DecidableEq, Repr

/-- Sum of the `iov_len` fields, as a mathematical integer (no wrap). -/
def total_len : List iovec → Nat
  | [] => 0
  | v :: vs => v.iov_len + total_len vs

/-- The bytes one iovec designates in memory `mem`. -/
def seg_bytes (mem : Nat → Nat) (v : iovec) : List Nat :=
  (List.range v.iov_len).map (fun i => mem (v.iov_base + i))

/-- The bytes a list of iovecs designates, in list order. -/
def iov_bytes (mem : Nat → Nat) : List iovec → List Nat
  | [] => []
  | v :: vs => seg_bytes mem v ++ iov_bytes mem vs

/-! ## Fragmentation (`Server::send`, `Netserver_IPv6::send`) -/

/-- The arguments of one call of `sendfrag_ipv4` / `send_fragment`:
`offset` and `chunk` after conversion to the `uint16_t` parameters, the payload
iovecs handed over (the first `iovlen` entries of the vector, without the
leading header entries), and the more-fragments flag. -/
structure Fragment where
  offset : Nat
  chunk : Nat
  payload : List iovec
  mf : Bool
deriving DecidableEq, Repr

/-- The `while (iter != iov.end())` loop shared, statement for statement, by
`Server::send` (server.cc 99-138) and `Netserver_IPv6::send` (ipv6.cc 78-119),
followed by the final `sendfrag` call.

The vector is held as a zipper: `sent` is the range from the first payload
entry up to `iter` (already counted into `chunk`), `rest` is `iter .. end()`.
`chunk` and `offset` are the `unsigned` locals.  `fuel` bounds the number of
loop iterations plus one for the final call; the Boolean of the result tells
whether the function returned within that bound, and the list holds the
calls made so far, in order. -/
def frag_loop (max_frag : Nat) :
    Nat → List iovec → List iovec → Nat → Nat → List Fragment × Bool
  | 0, _, _, _, _ => ([], false)
  | _ + 1, sent, [], chunk, offset =>
      -- send final fragment
      ([⟨offset % 2 ^ 16, chunk % 2 ^ 16, sent, false⟩], true)
  | fuel + 1, sent, vec :: rest, chunk, offset =>
      let p := vec.iov_base
      let len := vec.iov_len
      -- chunk += len  (unsigned += size_t)
      let chunk := (chunk + len) % 2 ^ 32
      -- did we take too much?
      if chunk > max_frag then
        -- excess = chunk - max_frag  (size_t; chunk > max_frag, no wrap)
        let excess := chunk - max_frag
        -- chunk -= excess  (back to unsigned)
        let chunk := (chunk - excess) % 2 ^ 32
        let round := chunk % 8
        let chunk := chunk - round
        let excess := (excess + round) % 2 ^ 64
        -- vec.iov_len -= excess  (size_t, wraps when excess > len)
        let new_len := (len + 2 ^ 64 - excess) % 2 ^ 64
        -- iovec { p + vec.iov_len, len - vec.iov_len }
        let left : iovec := ⟨(p + new_len) % 2 ^ 64, (len + 2 ^ 64 - new_len) % 2 ^ 64⟩
        let call : Fragment :=
          ⟨offset % 2 ^ 16, chunk % 2 ^ 16, sent ++ [⟨p, new_len⟩], true⟩
        -- erase the transmitted iovecs; offset += chunk; chunk = 0
        let r := frag_loop max_frag fuel [] (left :: rest) 0 ((offset + chunk) % 2 ^ 32)
        (call :: r.1, r.2)
      else
        frag_loop max_frag fuel (sent ++ [vec]) rest chunk offset

/-- The local `max_frag = mtu - sizeof(struct ip)` of `Server::send`, in
`size_t` arithmetic. -/
def max_frag_ipv4 (mtu : Nat) : Nat := (mtu + 2 ^ 64 - 20) % 2 ^ 64

/-- The function `Server::send`: `iov[0]` is the IP header, the loop starts at
`iov.begin() + 1` with `chunk = offset = 0`. -/
def Server_send (mtu : Nat) (fuel : Nat) (iov : List iovec) : List Fragment × Bool :=
  frag_loop (max_frag_ipv4 mtu) fuel [] (iov.drop 1) 0 0

/-- The header fields `sendfrag_ipv4` writes for one call: `ip_len` and
`ip_off` (both stored through `htons`, hence 16 bits). -/
def ip_len (f : Fragment) : Nat := (f.chunk + 20) % 2 ^ 16

/-- The field `(mf << 13) | (offset >> 3)` of `sendfrag_ipv4`. -/
def ip_off (f : Fragment) : Nat :=
  (((if f.mf then 1 else 0) <<< 13) ||| (f.offset >>> 3)) % 2 ^ 16

/-- The function `payload_length`: `std::accumulate` from `cbegin() + 1` with the
accumulator typed by its initial value `0U`, an `unsigned`. -/
def payload_length (iov : List iovec) : Nat :=
  (iov.drop 1).foldl (fun a b => (a + b.iov_len) % 2 ^ 32) 0

/-- The field `ip6_plen = chunk + sizeof frag` of `send_fragment`. -/
def ip6_plen (f : Fragment) : Nat := (f.chunk + 8) % 2 ^ 16

/-- The field `ip6f_offlg = (offset & 0xfff8) | mf` of `send_fragment`. -/
def ip6f_offlg (f : Fragment) : Nat :=
  ((f.offset &&& 0xfff8) ||| (if f.mf then 1 else 0)) % 2 ^ 16

/-- What `Netserver_IPv6::send` hands to `send_up`. -/
inductive Sent6 where
  /-- The packet fitted: one `send_up` of the first `iovlen` entries, with
  `ip6_plen` set to the payload length. -/
  | whole (plen : Nat) (iov : List iovec)
  /-- The fragmenting branch: the `send_fragment` calls, and whether the
  function returned within the fuel. -/
  | fragmented (calls : List Fragment) (returned : Bool)
deriving DecidableEq, Repr

/-- The function `Netserver_IPv6::send` with `mtu = 1500U`: `max_frag = 1500 - 40 - 8`. -/
def Netserver_IPv6_send (fuel : Nat) (iovs_in : List iovec) (iovlen : Nat) : Sent6 :=
  let mtu := 1500
  let len := payload_length iovs_in
  -- if it fits don't fragment it
  if len + 40 < mtu then
    Sent6.whole (len % 2 ^ 16) (iovs_in.take iovlen)
  else
    let max_frag := mtu - 40 - 8
    let r := frag_loop max_frag fuel [] (iovs_in.drop 1) 0 0
    Sent6.fragmented r.1 r.2

/-! ## Read cursor -/

/-- Modelled from the spec: the Read Cursor (class `ReadBuffer`, declared in a
header that is not part of the sources at hand).  It wraps a byte span and a
current offset: `base` is the memory from the base pointer on, `size` the
length of the span, `position` the offset. -/
structure ReadBuffer where
  base : List Nat
  size : Nat
  position : Nat
deriving DecidableEq, Repr

/-- Modelled from the spec: `available()` returns the remaining byte count. -/
def ReadBuffer.available (b : ReadBuffer) : Nat := b.size - b.position

/-- Modelled from the spec: the index operator, a bounds-free peek at the
captured bytes ahead of the cursor; the result is a `uint8_t`. -/
def ReadBuffer.peek (b : ReadBuffer) (i : Nat) : Nat :=
  (b.base.getD (b.position + i) 0) % 256

/-- Modelled from the spec: `read<T>()` / `read<uint8_t>(n)` for `n` bytes in
all.  It fails (`none`) if `available() < n`; on success the offset advances
by `n`. -/
def ReadBuffer.read (b : ReadBuffer) (n : Nat) : Option ReadBuffer :=
  if b.available < n then none else some { b with position := b.position + n }

/-- Big-endian 16-bit field at `i` bytes ahead of the cursor (`ntohs` of the
stored field). -/
def ReadBuffer.be16 (b : ReadBuffer) (i : Nat) : Nat := b.peek i * 256 + b.peek (i + 1)

/-! ## IPv4 receive path (`Server::handle_packet`) -/

/-- Protocol numbers of `netinet/in.h`. -/
def IPPROTO_HOPOPTS : Nat := 0
/-- Protocol number of UDP. -/
def IPPROTO_UDP : Nat := 17
/-- Protocol number of the IPv6 Routing header. -/
def IPPROTO_ROUTING : Nat := 43
/-- Protocol number of the IPv6 Fragment header. -/
def IPPROTO_FRAGMENT : Nat := 44
/-- Protocol number "no next header". -/
def IPPROTO_NONE : Nat := 59
/-- Protocol number of the IPv6 Destination Options header. -/
def IPPROTO_DSTOPTS : Nat := 60
/-- Protocol number of the IPv6 Mobility header. -/
def IPPROTO_MH : Nat := 135

/-- What one call of `Server::handle_packet` does. -/
inductive Outcome where
  /-- It returned before DNS execution: nothing executed, nothing sent. -/
  | dropped
  /-- It issued a cursor read of `requested` bytes with only `available` left,
  which the cursor contract forbids. -/
  | short_read (requested available : Nat)
  /-- The call `ctx.execute` ran and returned false. -/
  | no_answer
  /-- The call `ctx.execute` ran, returned true, and `send(s, iov, ...)` was called. -/
  | send (iov : List iovec)
deriving DecidableEq, Repr

/-- Result of the L3 part of `handle_packet`. -/
inductive L3Step where
  | dropped
  | short_read (requested available : Nat)
  /-- Parsing goes on to the UDP header with this cursor and this vector. -/
  | proceed (cur : ReadBuffer) (iov : List iovec)
deriving DecidableEq, Repr

/-- The `version == 4` branch of `handle_packet` (server.cc 159-199), from the
header-length check to the UDP-only test.  `ip4_out` is the address of the
response header pushed as `iov[0]`. -/
def handle_ipv4 (ip4_out : Nat) (buffer : List Nat) (cur : ReadBuffer) : L3Step :=
  let iov : List iovec := [⟨ip4_out, 20⟩]
  -- check IP header length
  let ihl := 4 * (cur.peek 0 &&& 0x0f)
  if cur.available < ihl then L3Step.dropped else
  -- consume IPv4 header, skipping IP options
  match cur.read 20 with
  | none => L3Step.short_read 20 cur.available
  | some cur1 =>
    let ip_len := cur.be16 2
    let ip_p := cur.peek 9
    let skipped : Option ReadBuffer := if ihl > 20 then cur1.read (ihl - 20) else some cur1
    match skipped with
    | none => L3Step.short_read (ihl - 20) cur1.available
    | some cur2 =>
      -- hack for broken AF_PACKET size - recreate the buffer
      let rebased : Except (Nat × Nat) ReadBuffer :=
        if cur2.size = 46 then
          let pos := cur2.position
          let len := ip_len
          if len < 46 then
            match (ReadBuffer.mk buffer len 0).read pos with
            | none => Except.error (pos, len)
            | some cur3 => Except.ok cur3
          else Except.ok cur2
        else Except.ok cur2
      match rebased with
      | Except.error (req, av) => L3Step.short_read req av
      | Except.ok cur3 =>
        -- UDP only supported
        if ip_p ≠ IPPROTO_UDP then L3Step.dropped else L3Step.proceed cur3 iov

/-- The function `Server::handle_packet`.  `port` is the value of the `port` member read as
a network-order field, `execute` stands for `Context::execute` (it returns its
verdict and the vector as it leaves it), `ip4_out` and `udp_out` are the
addresses of the two response headers. -/
def handle_packet (port : Nat) (execute : ReadBuffer → List iovec → Bool × List iovec)
    (ip4_out udp_out : Nat) (buffer : List Nat) (buflen : Nat) : Outcome :=
  -- empty frame
  if buflen = 0 then Outcome.dropped else
  let cur : ReadBuffer := ⟨buffer, buflen, 0⟩
  -- extract L3 header
  let version := (cur.peek 0 >>> 4) &&& 0x0f
  let l3 : L3Step :=
    if version = 4 then handle_ipv4 ip4_out buffer cur
    else if version = 6 then L3Step.dropped
    else L3Step.proceed cur []
  match l3 with
  | L3Step.dropped => Outcome.dropped
  | L3Step.short_read r a => Outcome.short_read r a
  | L3Step.proceed cur iov =>
    -- consume L4 UDP header
    if cur.available < 8 then Outcome.dropped else
    match cur.read 8 with
    | none => Outcome.short_read 8 cur.available
    | some cur1 =>
      -- require expected dest port
      if cur.be16 2 ≠ port then Outcome.dropped else
      -- ignore illegal source ports
      let sport := cur.be16 0
      if sport = 0 ∨ sport = 7 ∨ sport = 123 then Outcome.dropped else
      let iov := iov ++ [⟨udp_out, 8⟩]
      match execute cur1 iov with
      | (true, iov) => Outcome.send iov
      | (false, _) => Outcome.no_answer

/-- The L3 part of `handle_packet` on its own (server.cc 150-205): the cursor
over the frame, the version sniff and the branch on it, as in `handle_packet`. -/
def l3_step (ip4_out : Nat) (buffer : List Nat) (buflen : Nat) : L3Step :=
  let cur : ReadBuffer := ⟨buffer, buflen, 0⟩
  let version := (cur.peek 0 >>> 4) &&& 0x0f
  if version = 4 then handle_ipv4 ip4_out buffer cur
  else if version = 6 then L3Step.dropped
  else L3Step.proceed cur []

/-- The `version == 4` branch of `handle_packet` up to and including the
capture workaround (server.cc 163-183), that is `handle_ipv4` without its final
UDP-only test: the cursor is the one left by the workaround. -/
def ipv4_after_workaround (ip4_out : Nat) (buffer : List Nat) (cur : ReadBuffer) : L3Step :=
  let iov : List iovec := [⟨ip4_out, 20⟩]
  -- check IP header length
  let ihl := 4 * (cur.peek 0 &&& 0x0f)
  if cur.available < ihl then L3Step.dropped else
  -- consume IPv4 header, skipping IP options
  match cur.read 20 with
  | none => L3Step.short_read 20 cur.available
  | some cur1 =>
    let ip_len := cur.be16 2
    let skipped : Option ReadBuffer := if ihl > 20 then cur1.read (ihl - 20) else some cur1
    match skipped with
    | none => L3Step.short_read (ihl - 20) cur1.available
    | some cur2 =>
      -- hack for broken AF_PACKET size - recreate the buffer
      if cur2.size = 46 then
        let pos := cur2.position
        let len := ip_len
        if len < 46 then
          match (ReadBuffer.mk buffer len 0).read pos with
          | none => L3Step.short_read pos len
          | some cur3 => L3Step.proceed cur3 iov
        else L3Step.proceed cur2 iov
      else L3Step.proceed cur2 iov

/-! ## IPv6 layer (`Netserver_IPv6`) -/

/-- A `struct in6_addr`: sixteen bytes. -/
structure in6_addr where
  s6_addr : Fin 16 → Nat

/-- The bytes at and after the address of an `in6_addr`, as `memcmp` sees them
through a `const uint8_t*`. -/
def in6_addr.ptr (a : in6_addr) : Nat → Nat :=
  fun i => if h : i < 16 then a.s6_addr ⟨i, h⟩ else 0

/-- The C function `::memcmp(p, q, n)`: compares byte by byte and returns the difference at
the first mismatch, zero if there is none. -/
def memcmp (p q : Nat → Nat) : Nat → Int
  | 0 => 0
  | n + 1 =>
    if p 0 = q 0 then memcmp (fun i => p (i + 1)) (fun i => q (i + 1)) n
    else (p 0 : Int) - (q 0 : Int)

/-- The `static const in6_addr` of `match_solicited`. -/
def solicit_prefix : in6_addr :=
  ⟨![0xff, 0x02, 0, 0, 0, 0, 0, 0, 0, 0, 0, 0x01, 0xff, 0, 0, 0]⟩

/-- The solicited-node prefix ff02:0:0:0:0:1:ff of the specification, as its
thirteen bytes in order. -/
def solicited_node_prefix : List Nat :=
  [0xff, 0x02, 0x00, 0x00, 0x00, 0x00, 0x00, 0x00, 0x00, 0x00, 0x00, 0x01, 0xff]

/-- The function `match_solicited` (ipv6.cc 122-133). -/
def match_solicited (list : List in6_addr) (addr : in6_addr) : Bool :=
  if memcmp addr.ptr solicit_prefix.ptr 13 ≠ 0 then false
  else list.any (fun cmp =>
    decide (memcmp (fun i => addr.ptr (13 + i)) (fun i => cmp.ptr (13 + i)) 3 = 0))

/-- The function `match_exact` (ipv6.cc 135-140). -/
def match_exact (list : List in6_addr) (addr : in6_addr) : Bool :=
  list.any (fun cmp => decide (memcmp addr.ptr cmp.ptr 16 = 0))

/-- The function `Netserver_IPv6::match`, over the member `addr`. -/
def Netserver_IPv6_match (addr : List in6_addr) (a : in6_addr) : Bool :=
  match_exact addr a || match_solicited addr a

/-- Result of `skip_extension_headers`: the value returned and the cursor as
left, or a read that the cursor contract forbids. -/
inductive SkipResult where
  | ret (next : Nat) (cur : ReadBuffer)
  | short_read (requested available : Nat)
deriving DecidableEq, Repr

/-- The function `skip_extension_headers` (ipv6.cc 147-177). -/
def skip_extension_headers (cur : ReadBuffer) (next : Nat) : SkipResult :=
  -- we don't know how to handle receipt of IPv6 fragments
  if next = IPPROTO_FRAGMENT then SkipResult.ret IPPROTO_NONE cur else
  -- recognized IPv6 extension headers
  if next ≠ IPPROTO_HOPOPTS ∧ next ≠ IPPROTO_DSTOPTS ∧
      next ≠ IPPROTO_ROUTING ∧ next ≠ IPPROTO_MH then SkipResult.ret next cur else
  -- read the extension header and skip the contents
  if cur.available < 2 then SkipResult.ret IPPROTO_NONE cur else
  match cur.read 1 with
  | none => SkipResult.short_read 1 cur.available
  | some cur1 =>
    let next := cur.peek 0
    match cur1.read 1 with
    | none => SkipResult.short_read 1 cur1.available
    | some cur2 =>
      let optlen := cur1.peek 0 * 8 + 6
      if cur2.available < optlen then SkipResult.ret IPPROTO_NONE cur2 else
      match cur2.read optlen with
      | none => SkipResult.short_read optlen cur2.available
      | some cur3 => SkipResult.ret next cur3

/-- The fields of `ip6_hdr` that `recv` fills in for the response. -/
structure ip6_hdr where
  ip6_flow : Nat
  ip6_plen : Nat
  ip6_nxt : Nat
  ip6_hlim : Nat
  ip6_src : in6_addr
  ip6_dst : in6_addr

/-- The sixteen bytes at `off` bytes ahead of the cursor, as an address. -/
def ReadBuffer.addr_at (b : ReadBuffer) (off : Nat) : in6_addr :=
  ⟨fun i => b.peek (off + i.val)⟩

/-- What one call of `Netserver_IPv6::recv` does. -/
inductive Recv6 where
  | dropped
  | short_read (requested available : Nat)
  /-- The response header was pushed and `dispatch(p, next)` called, with the
  cursor as left by the parsing. -/
  | dispatch (next : Nat) (ip6_out : ip6_hdr) (cur : ReadBuffer)

/-- The function `Netserver_IPv6::recv` (ipv6.cc 179-241).  `addr` is the member address
list, `registered` the dispatch-tree query; `cur` is `p.readbuf` on entry.
In the workaround `&in[0]` is the address of the byte the index operator
designates, the byte at the cursor.  `addr[0]` on an empty list is read as the
zero address. -/
def Netserver_IPv6_recv (addr : List in6_addr) (registered : Nat → Bool)
    (cur : ReadBuffer) : Recv6 :=
  -- extract L3 header
  let version := (cur.peek 0 >>> 4) &&& 0x0f
  if version ≠ 6 then Recv6.dropped else
  -- check IPv6 header length
  if cur.available < 40 then Recv6.dropped else
  -- read IPv6 header
  match cur.read 40 with
  | none => Recv6.short_read 40 cur.available
  | some cur1 =>
    let ip6_in : ip6_hdr :=
      { ip6_flow := ((cur.peek 0 * 256 + cur.peek 1) * 256 + cur.peek 2) * 256 + cur.peek 3
        ip6_plen := cur.be16 4
        ip6_nxt := cur.peek 6
        ip6_hlim := cur.peek 7
        ip6_src := cur.addr_at 8
        ip6_dst := cur.addr_at 24 }
    -- hack for broken AF_PACKET size - recreate the buffer
    let rebased : Except (Nat × Nat) ReadBuffer :=
      if cur1.size = 46 then
        let pos := cur1.position
        let len := ip6_in.ip6_plen
        if len < 46 then
          match (ReadBuffer.mk (cur1.base.drop cur1.position) len 0).read pos with
          | none => Except.error (pos, len)
          | some cur2 => Except.ok cur2
        else Except.ok cur1
      else Except.ok cur1
    match rebased with
    | Except.error (req, av) => Recv6.short_read req av
    | Except.ok cur2 =>
      -- check if it's for us
      if ¬ Netserver_IPv6_match addr ip6_in.ip6_dst then Recv6.dropped else
      -- skip over any extension headers
      match skip_extension_headers cur2 ip6_in.ip6_nxt with
      | SkipResult.short_read r a => Recv6.short_read r a
      | SkipResult.ret next cur3 =>
        if next = IPPROTO_NONE then Recv6.dropped else
        -- ignore if the next protocol isn't registered
        if ¬ registered next then Recv6.dropped else
        let ip6_out : ip6_hdr :=
          { ip6_flow := ip6_in.ip6_flow
            ip6_plen := 0
            ip6_nxt := next
            ip6_hlim := 255
            -- don't send from multicast addresses
            ip6_src := if ip6_in.ip6_dst.s6_addr 0 = 0xff then addr.headD ⟨fun _ => 0⟩
                       else ip6_in.ip6_dst
            ip6_dst := ip6_in.ip6_src }
        Recv6.dispatch next ip6_out cur3

/-- A `struct ether_addr`: six bytes. -/
structure ether_addr where
  ether_addr_octet : Fin 6 → Nat

/-- The constructor `Netserver_IPv6::Netserver_IPv6` (ipv6.cc 243-254): the
member `addr` once it has run. -/
def Netserver_IPv6_new (ether : ether_addr) : List in6_addr :=
  let link_local : Fin 16 → Nat :=
    ![0xfe, 0x80, 0, 0, 0, 0, 0, 0, 0, 0, 0, 0xff, 0xfe, 0, 0, 0]
  let link_local := Function.update link_local 8 (ether.ether_addr_octet 0 ^^^ 0x02)
  let link_local := Function.update link_local 9 (ether.ether_addr_octet 1)
  let link_local := Function.update link_local 10 (ether.ether_addr_octet 2)
  let link_local := Function.update link_local 13 (ether.ether_addr_octet 3)
  let link_local := Function.update link_local 14 (ether.ether_addr_octet 4)
  let link_local := Function.update link_local 15 (ether.ether_addr_octet 5)
  [⟨link_local⟩]

/-- The solicited-node multicast address ff02::1:ffXX:XXXX built from the low
24 bits of `a`: the thirteen prefix bytes followed by the last three bytes of
`a`. -/
def solicited_node_of (a : in6_addr) : in6_addr :=
  ⟨fun i => if i.val < 13 then solicited_node_prefix.getD i.val 0 else a.s6_addr i⟩

/-! ## Auxiliary predicates for the properties -/

/-- Ghost predicate on a run of `frag_loop`: at every cut made within the fuel,
the computed `excess` is at most the length of the iovec being cut, so that
`vec.iov_len -= excess` does not wrap.  Same control flow as `frag_loop`. -/
def cuts_fit (max_frag : Nat) : Nat → List iovec → Nat → Bool
  | 0, _, _ => true
  | _ + 1, [], _ => true
  | fuel + 1, vec :: rest, chunk =>
      let p := vec.iov_base
      let len := vec.iov_len
      let chunk := (chunk + len) % 2 ^ 32
      if chunk > max_frag then
        let excess := chunk - max_frag
        let chunk := (chunk - excess) % 2 ^ 32
        let round := chunk % 8
        let excess := (excess + round) % 2 ^ 64
        let new_len := (len + 2 ^ 64 - excess) % 2 ^ 64
        let left : iovec := ⟨(p + new_len) % 2 ^ 64, (len + 2 ^ 64 - new_len) % 2 ^ 64⟩
        decide (excess ≤ len) && cuts_fit max_frag fuel (left :: rest) 0
      else
        cuts_fit max_frag fuel rest chunk

/-- Declared offsets are the running sums of the declared lengths, from `o`. -/
def offsets_tile : Nat → List Fragment → Bool
  | _, [] => true
  | o, f :: fs => decide (f.offset = o) && offsets_tile (o + f.chunk) fs

/-- The payload bytes of the calls, concatenated in emission order. -/
def reassemble (mem : Nat → Nat) : List Fragment → List Nat
  | [] => []
  | f :: fs => iov_bytes mem f.payload ++ reassemble mem fs

/-- Length left in the cut iovec, in terms of the rounded fragment size. -/
def cut_len (M c : Nat) (v : iovec) : Nat :=
  (v.iov_len + 2 ^ 64 - ((c + v.iov_len) % 2 ^ 32 - (M - M % 8))) % 2 ^ 64

/-- Shape of a call sequence: while the loop runs every call carries the
flag; a run that returns ends with exactly one call without it. -/
def flags_shape (R : List Fragment × Bool) : Prop :=
  (R.2 = false → ∀ f ∈ R.1, f.mf = true) ∧
  (R.2 = true → ∃ init last, R.1 = init ++ [last] ∧ (∀ f ∈ init, f.mf = true) ∧ last.mf = false)

/-! # Properties -/

/-! ## Unfolding lemmas for the loop -/

theorem frag_loop_zero (M : Nat) (s r : List iovec) (c o : Nat) :
    frag_loop M 0 s r c o = ([], false) := by
  cases r <;> rfl

theorem frag_loop_nil (M n : Nat) (s : List iovec) (c o : Nat) :
    frag_loop M (n + 1) s [] c o = ([⟨o % 2 ^ 16, c % 2 ^ 16, s, false⟩], true) := rfl

theorem frag_loop_keep (M n : Nat) (s r : List iovec) (v : iovec) (c o : Nat)
    (h : ¬ M < (c + v.iov_len) % 2 ^ 32) :
    frag_loop M (n + 1) s (v :: r) c o
      = frag_loop M n (s ++ [v]) r ((c + v.iov_len) % 2 ^ 32) o := by
  simp only [frag_loop, gt_iff_lt, if_neg h]

theorem frag_loop_cut (M n : Nat) (s r : List iovec) (v : iovec) (c o : Nat)
    (h : M < (c + v.iov_len) % 2 ^ 32) :
    frag_loop M (n + 1) s (v :: r) c o
      = (⟨o % 2 ^ 16, (M - M % 8) % 2 ^ 16, s ++ [⟨v.iov_base, cut_len M c v⟩], true⟩
          :: (frag_loop M n []
                (⟨(v.iov_base + cut_len M c v) % 2 ^ 64,
                  (v.iov_len + 2 ^ 64 - cut_len M c v) % 2 ^ 64⟩ :: r) 0
                ((o + (M - M % 8)) % 2 ^ 32)).1,
         (frag_loop M n []
                (⟨(v.iov_base + cut_len M c v) % 2 ^ 64,
                  (v.iov_len + 2 ^ 64 - cut_len M c v) % 2 ^ 64⟩ :: r) 0
                ((o + (M - M % 8)) % 2 ^ 32)).2) := by
  have hlt : (c + v.iov_len) % 2 ^ 32 < 2 ^ 32 := Nat.mod_lt _ (by norm_num)
  have e1 : ((c + v.iov_len) % 2 ^ 32 - ((c + v.iov_len) % 2 ^ 32 - M)) % 2 ^ 32 = M := by
    omega
  have e2 : ((c + v.iov_len) % 2 ^ 32 - M + M % 8) % 2 ^ 64
      = (c + v.iov_len) % 2 ^ 32 - (M - M % 8) := by
    omega
  simp only [frag_loop, gt_iff_lt, if_pos h, e1, e2, cut_len]

/-- The iovec left over by a cut holds exactly the excess. -/
theorem left_len_eq (M c : Nat) (v : iovec) (hv : v.iov_len < 2 ^ 64) :
    (v.iov_len + 2 ^ 64 - cut_len M c v) % 2 ^ 64
      = (c + v.iov_len) % 2 ^ 32 - (M - M % 8) := by
  have hlt : (c + v.iov_len) % 2 ^ 32 < 2 ^ 32 := Nat.mod_lt _ (by norm_num)
  unfold cut_len
  omega

/-! ## Invariants of the loop -/

/-- The running `chunk` never exceeds `max_frag` between iterations, so no call
declares more than `max_frag` bytes. -/
theorem frag_loop_chunk_le (M : Nat) :
    ∀ (n : Nat) (s r : List iovec) (c o : Nat), c ≤ M →
      ∀ f ∈ (frag_loop M n s r c o).1, f.chunk ≤ M := by
  intro n
  induction n with
  | zero => intro s r c o _ f hf; simp [frag_loop_zero] at hf
  | succ n ih =>
    intro s r c o hc f hf
    cases r with
    | nil =>
      simp only [frag_loop_nil, List.mem_singleton] at hf
      subst hf
      exact le_trans (Nat.mod_le _ _) hc
    | cons v r =>
      by_cases h : M < (c + v.iov_len) % 2 ^ 32
      · rw [frag_loop_cut M n s r v c o h] at hf
        rcases List.mem_cons.mp hf with hf | hf
        · subst hf
          exact le_trans (Nat.mod_le _ _) (Nat.sub_le _ _)
        · exact ih _ _ _ _ (Nat.zero_le _) f hf
      · rw [frag_loop_keep M n s r v c o h] at hf
        exact ih _ _ _ _ (not_lt.mp h) f hf

/-- Offsets stay multiples of 8, and every call flagged more-fragments
declares a multiple of 8. -/
theorem frag_loop_aligned (M : Nat) :
    ∀ (n : Nat) (s r : List iovec) (c o : Nat), o % 8 = 0 →
      ∀ f ∈ (frag_loop M n s r c o).1,
        f.offset % 8 = 0 ∧ (f.mf = true → f.chunk % 8 = 0) := by
  intro n
  induction n with
  | zero => intro s r c o _ f hf; simp [frag_loop_zero] at hf
  | succ n ih =>
    intro s r c o ho f hf
    cases r with
    | nil =>
      simp only [frag_loop_nil, List.mem_singleton] at hf
      subst hf
      refine ⟨?_, ?_⟩
      · show (o % 2 ^ 16) % 8 = 0
        omega
      · intro hmf; cases hmf
    | cons v r =>
      by_cases h : M < (c + v.iov_len) % 2 ^ 32
      · rw [frag_loop_cut M n s r v c o h] at hf
        rcases List.mem_cons.mp hf with hf | hf
        · subst hf
          refine ⟨?_, fun _ => ?_⟩
          · show (o % 2 ^ 16) % 8 = 0
            omega
          · show ((M - M % 8) % 2 ^ 16) % 8 = 0
            omega
        · refine ih _ _ _ _ ?_ f hf
          omega
      · rw [frag_loop_keep M n s r v c o h] at hf
        exact ih _ _ _ _ ho f hf

theorem flags_shape_cons (a : Fragment) (ha : a.mf = true) (R : List Fragment × Bool)
    (H : flags_shape R) : flags_shape (a :: R.1, R.2) := by
  obtain ⟨h1, h2⟩ := H
  constructor
  · intro hd f hf
    rcases List.mem_cons.mp hf with hf | hf
    · subst hf; exact ha
    · exact h1 hd f hf
  · intro hd
    obtain ⟨init, last, e, hi, hl⟩ := h2 hd
    refine ⟨a :: init, last, ?_, ?_, hl⟩
    · show a :: R.1 = a :: init ++ [last]
      rw [e]; rfl
    · intro f hf
      rcases List.mem_cons.mp hf with hf | hf
      · subst hf; exact ha
      · exact hi f hf

theorem frag_loop_flags (M : Nat) :
    ∀ (n : Nat) (s r : List iovec) (c o : Nat), flags_shape (frag_loop M n s r c o) := by
  intro n
  induction n with
  | zero =>
    intro s r c o
    rw [frag_loop_zero]
    exact ⟨fun _ f hf => (by cases hf), fun h => (by cases h)⟩
  | succ n ih =>
    intro s r c o
    cases r with
    | nil =>
      rw [frag_loop_nil]
      constructor
      · intro h; cases h
      · intro _
        refine ⟨[], ⟨o % 2 ^ 16, c % 2 ^ 16, s, false⟩, rfl, ?_, rfl⟩
        intro f hf; cases hf
    | cons v r =>
      by_cases h : M < (c + v.iov_len) % 2 ^ 32
      · rw [frag_loop_cut M n s r v c o h]
        exact flags_shape_cons _ rfl _ (ih _ _ _ _)
      · rw [frag_loop_keep M n s r v c o h]
        exact ih _ _ _ _

/-- The loop returns: with `max_frag ≥ 8` every cut removes at least 8 bytes
from what is left to iterate over, so `total_len rest + chunk + rest.length`
shrinks at every iteration. -/
theorem frag_loop_returns (M : Nat) (hM : 8 ≤ M) :
    ∀ (n : Nat) (s r : List iovec) (c o : Nat),
      (∀ v ∈ r, v.iov_len < 2 ^ 64) →
      total_len r + c + r.length + 1 ≤ n →
      (frag_loop M n s r c o).2 = true := by
  intro n
  induction n with
  | zero => intro s r c o _ hn; omega
  | succ n ih =>
    intro s r c o hr hn
    cases r with
    | nil => rfl
    | cons v r =>
      have hv : v.iov_len < 2 ^ 64 := hr v (List.mem_cons_self _ _)
      have hlt : (c + v.iov_len) % 2 ^ 32 ≤ c + v.iov_len := Nat.mod_le _ _
      simp only [total_len, List.length_cons] at hn
      by_cases h : M < (c + v.iov_len) % 2 ^ 32
      · rw [frag_loop_cut M n s r v c o h]
        refine ih _ _ _ _ ?_ ?_
        · intro w hw
          rcases List.mem_cons.mp hw with hw | hw
          · subst hw
            exact Nat.mod_lt _ (by norm_num)
          · exact hr w (List.mem_cons_of_mem _ hw)
        · simp only [total_len, List.length_cons]
          rw [left_len_eq M c v hv]
          omega
      · rw [frag_loop_keep M n s r v c o h]
        refine ih _ _ _ _ (fun w hw => hr w (List.mem_cons_of_mem _ hw)) ?_
        omega

/-! ## Bytes designated by iovec lists -/

theorem total_len_append (a b : List iovec) :
    total_len (a ++ b) = total_len a + total_len b := by
  induction a with
  | nil => simp [total_len]
  | cons v a ih => simp [total_len, ih, Nat.add_assoc]

theorem iov_bytes_append (mem : Nat → Nat) (a b : List iovec) :
    iov_bytes mem (a ++ b) = iov_bytes mem a ++ iov_bytes mem b := by
  induction a with
  | nil => simp [iov_bytes]
  | cons v a ih => simp [iov_bytes, ih, List.append_assoc]

theorem seg_bytes_length (mem : Nat → Nat) (v : iovec) :
    (seg_bytes mem v).length = v.iov_len := by
  simp [seg_bytes]

theorem iov_bytes_length (mem : Nat → Nat) (l : List iovec) :
    (iov_bytes mem l).length = total_len l := by
  induction l with
  | nil => simp [iov_bytes, total_len]
  | cons v l ih => simp [iov_bytes, total_len, ih, seg_bytes_length]

/-- Cutting an iovec at `a` splits its bytes at `a`. -/
theorem seg_bytes_split (mem : Nat → Nat) (p a b : Nat) :
    seg_bytes mem ⟨p, a + b⟩ = seg_bytes mem ⟨p, a⟩ ++ seg_bytes mem ⟨p + a, b⟩ := by
  simp only [seg_bytes, List.range_add, List.map_append, List.map_map]
  congr 1
  apply List.map_congr_left
  intro i _
  simp [Function.comp, Nat.add_assoc]

/-! ## Unfolding lemmas for the ghost predicate -/

theorem cuts_fit_keep (M n : Nat) (r : List iovec) (v : iovec) (c : Nat)
    (h : ¬ M < (c + v.iov_len) % 2 ^ 32) :
    cuts_fit M (n + 1) (v :: r) c = cuts_fit M n r ((c + v.iov_len) % 2 ^ 32) := by
  simp only [cuts_fit, gt_iff_lt, if_neg h]

theorem cuts_fit_cut (M n : Nat) (r : List iovec) (v : iovec) (c : Nat)
    (h : M < (c + v.iov_len) % 2 ^ 32) :
    cuts_fit M (n + 1) (v :: r) c
      = (decide ((c + v.iov_len) % 2 ^ 32 - (M - M % 8) ≤ v.iov_len) &&
          cuts_fit M n (⟨(v.iov_base + cut_len M c v) % 2 ^ 64,
            (v.iov_len + 2 ^ 64 - cut_len M c v) % 2 ^ 64⟩ :: r) 0) := by
  have hlt : (c + v.iov_len) % 2 ^ 32 < 2 ^ 32 := Nat.mod_lt _ (by norm_num)
  have e1 : ((c + v.iov_len) % 2 ^ 32 - ((c + v.iov_len) % 2 ^ 32 - M)) % 2 ^ 32 = M := by
    omega
  have e2 : ((c + v.iov_len) % 2 ^ 32 - M + M % 8) % 2 ^ 64
      = (c + v.iov_len) % 2 ^ 32 - (M - M % 8) := by
    omega
  simp only [cuts_fit, gt_iff_lt, if_pos h, e1, e2, cut_len]

/-! ## Tiling -/

/-- When no cut wraps and nothing is truncated, the calls made from a loop
state declare what they carry, are laid end to end from `o`, and carry the
bytes of `sent ++ rest`. -/
theorem frag_loop_tiles (mem : Nat → Nat) (M : Nat) (hM : 8 ≤ M) :
    ∀ (n : Nat) (s r : List iovec) (c o : Nat),
      c = total_len s →
      o + total_len s + total_len r < 2 ^ 16 →
      (∀ v ∈ r, v.iov_base + v.iov_len ≤ 2 ^ 64) →
      cuts_fit M n r c = true →
      total_len r + c + r.length + 1 ≤ n →
      (frag_loop M n s r c o).2 = true ∧
      (∀ f ∈ (frag_loop M n s r c o).1, total_len f.payload = f.chunk) ∧
      offsets_tile o (frag_loop M n s r c o).1 = true ∧
      reassemble mem (frag_loop M n s r c o).1 = iov_bytes mem (s ++ r) := by
  intro n
  induction n with
  | zero => intro s r c o _ _ _ _ hn; omega
  | succ n ih =>
    intro s r c o hc hT hmem hfit hn
    cases r with
    | nil =>
      simp only [total_len, Nat.add_zero] at hT
      have ho : o % 2 ^ 16 = o := Nat.mod_eq_of_lt (by omega)
      have hc2 : c % 2 ^ 16 = c := Nat.mod_eq_of_lt (by omega)
      rw [frag_loop_nil, ho, hc2]
      refine ⟨rfl, ?_, ?_, ?_⟩
      · intro f hf
        simp only [List.mem_singleton] at hf
        subst hf
        exact hc.symm
      · simp [offsets_tile]
      · simp [reassemble]
    | cons v r =>
      simp only [total_len, List.length_cons] at hT hn
      have hmod : (c + v.iov_len) % 2 ^ 32 = c + v.iov_len := Nat.mod_eq_of_lt (by omega)
      have hv64 : v.iov_base + v.iov_len ≤ 2 ^ 64 := hmem v (List.mem_cons_self _ _)
      have hmem2 : ∀ w ∈ r, w.iov_base + w.iov_len ≤ 2 ^ 64 :=
        fun w hw => hmem w (List.mem_cons_of_mem _ hw)
      by_cases h : M < (c + v.iov_len) % 2 ^ 32
      · rw [cuts_fit_cut M n r v c h, Bool.and_eq_true, decide_eq_true_eq] at hfit
        obtain ⟨hex, hfit⟩ := hfit
        rw [hmod] at hex h
        have hcl : cut_len M c v = (M - M % 8) - c := by
          unfold cut_len
          rw [hmod]
          omega
        have hleft : (v.iov_len + 2 ^ 64 - cut_len M c v) % 2 ^ 64
            = c + v.iov_len - (M - M % 8) := by
          rw [left_len_eq M c v (by omega), hmod]
        have hsplit : v.iov_len = ((M - M % 8) - c) + (c + v.iov_len - (M - M % 8)) := by
          omega
        have hbase : (v.iov_base + ((M - M % 8) - c)) % 2 ^ 64
            = v.iov_base + ((M - M % 8) - c) := Nat.mod_eq_of_lt (by omega)
        rw [frag_loop_cut M n s r v c o (by rw [hmod]; exact h)]
        rw [hleft, hcl, hbase] at hfit ⊢
        have ho : o % 2 ^ 16 = o := Nat.mod_eq_of_lt (by omega)
        have hM2 : (M - M % 8) % 2 ^ 16 = M - M % 8 := Nat.mod_eq_of_lt (by omega)
        have ho2 : (o + (M - M % 8)) % 2 ^ 32 = o + (M - M % 8) :=
          Nat.mod_eq_of_lt (by omega)
        rw [ho, hM2, ho2]
        obtain ⟨i1, i2, i3, i4⟩ := ih []
          (⟨v.iov_base + ((M - M % 8) - c), c + v.iov_len - (M - M % 8)⟩ :: r) 0
          (o + (M - M % 8)) rfl
          (by simp only [total_len]; omega)
          (by
            intro w hw
            rcases List.mem_cons.mp hw with hw | hw
            · subst hw
              show v.iov_base + ((M - M % 8) - c) + (c + v.iov_len - (M - M % 8)) ≤ 2 ^ 64
              omega
            · exact hmem2 w hw)
          hfit
          (by simp only [total_len, List.length_cons]; omega)
        refine ⟨i1, ?_, ?_, ?_⟩
        · intro f hf
          rcases List.mem_cons.mp hf with hf | hf
          · subst hf
            simp only [total_len_append, total_len]
            omega
          · exact i2 f hf
        · simp only [offsets_tile, decide_True, Bool.true_and]
          exact i3
        · simp only [reassemble]
          have hR : iov_bytes mem (s ++ v :: r)
              = iov_bytes mem s ++ (seg_bytes mem v ++ iov_bytes mem r) := by
            rw [iov_bytes_append]; rfl
          have hv : seg_bytes mem v
              = seg_bytes mem ⟨v.iov_base, (M - M % 8 - c) + (c + v.iov_len - (M - M % 8))⟩ := by
            rw [← hsplit]
          rw [i4, hR, hv, seg_bytes_split, iov_bytes_append]
          simp only [iov_bytes, List.nil_append, List.append_nil, List.append_assoc]
      · rw [cuts_fit_keep M n r v c h] at hfit
        rw [frag_loop_keep M n s r v c o h, hmod]
        rw [hmod] at hfit
        have := ih (s ++ [v]) r (c + v.iov_len) o
          (by simp only [total_len_append, total_len]; omega)
          (by simp only [total_len_append, total_len]; omega) hmem2 hfit (by omega)
        simpa only [List.append_assoc, List.singleton_append] using this

/-- Calls laid end to end whose concatenation is the tail of a payload from
`o` each hold the slice of the payload that their header declares. -/
theorem slices_of_tile (mem : Nat → Nat) (P : List Nat) :
    ∀ (fs : List Fragment) (o : Nat),
      offsets_tile o fs = true →
      (∀ f ∈ fs, total_len f.payload = f.chunk) →
      P.drop o = reassemble mem fs →
      ∀ f ∈ fs, iov_bytes mem f.payload = (P.drop f.offset).take f.chunk := by
  intro fs
  induction fs with
  | nil => intro o _ _ _ f hf; cases hf
  | cons g fs ih =>
    intro o ht hl hP f hf
    simp only [offsets_tile, Bool.and_eq_true, decide_eq_true_eq] at ht
    obtain ⟨hgo, ht⟩ := ht
    have hg : (iov_bytes mem g.payload).length = g.chunk := by
      rw [iov_bytes_length]; exact hl g (List.mem_cons_self _ _)
    simp only [reassemble] at hP
    rcases List.mem_cons.mp hf with hf | hf
    · subst hf
      rw [hgo, hP, List.take_left' hg]
    · refine ih (o + g.chunk) ht (fun f hf => hl f (List.mem_cons_of_mem _ hf)) ?_ f hf
      rw [← List.drop_drop, hP, List.drop_left' hg]

/-! ## Claims -/

/-- C2. Every packet emitted by the send paths is MTU-bounded: whatever the
payload segment list and however long the loop runs, each call that
`Server::send` makes to `sendfrag_ipv4` declares an IP total length
(`chunk + 20`, as stored in `ip_len`) of at most the MTU, for every MTU of at
least 20; and every packet `Netserver_IPv6::send` hands upward, whole or
fragment, declares `40 + ip6_plen` of at most 1500. -/
theorem send_mtu_bounded (mtu fuel : Nat) (iov : List iovec) (fuel6 : Nat)
    (iovs_in : List iovec) (iovlen : Nat) (hmtu : 20 ≤ mtu) :
    (∀ f ∈ (Server_send mtu fuel iov).1, ip_len f ≤ mtu) ∧
    (∀ plen sent, Netserver_IPv6_send fuel6 iovs_in iovlen = Sent6.whole plen sent →
        40 + plen ≤ 1500) ∧
    (∀ calls returned,
        Netserver_IPv6_send fuel6 iovs_in iovlen = Sent6.fragmented calls returned →
        ∀ f ∈ calls, 40 + ip6_plen f ≤ 1500) := by
  refine ⟨?_, ?_, ?_⟩
  · intro f hf
    have hle := frag_loop_chunk_le (max_frag_ipv4 mtu) fuel [] (iov.drop 1) 0 0
      (Nat.zero_le _) f hf
    have hM : max_frag_ipv4 mtu ≤ mtu - 20 := by
      unfold max_frag_ipv4
      have : (mtu + 2 ^ 64 - 20) % 2 ^ 64 ≤ mtu - 20 := by omega
      exact this
    unfold ip_len
    have : (f.chunk + 20) % 2 ^ 16 ≤ f.chunk + 20 := Nat.mod_le _ _
    omega
  · intro plen sent h
    unfold Netserver_IPv6_send at h
    simp only at h
    split at h
    · rename_i hlt
      injection h with h1 _
      have : payload_length iovs_in % 2 ^ 16 ≤ payload_length iovs_in := Nat.mod_le _ _
      omega
    · cases h
  · intro calls returned h f hf
    unfold Netserver_IPv6_send at h
    simp only at h
    split at h
    · cases h
    · injection h with h1 _
      subst h1
      have hle := frag_loop_chunk_le 1452 fuel6 [] (iovs_in.drop 1) 0 0 (Nat.zero_le _) f hf
      unfold ip6_plen
      have : (f.chunk + 8) % 2 ^ 16 ≤ f.chunk + 8 := Nat.mod_le _ _
      omega

/-- In a sequence of the shape the loop produces, what holds of every call
flagged more-fragments holds of every call but the last. -/
theorem flags_shape_dropLast (R : List Fragment × Bool) (H : flags_shape R)
    (P : Fragment → Prop) (hP : ∀ f ∈ R.1, f.mf = true → P f) :
    ∀ f ∈ R.1.dropLast, P f := by
  intro f hf
  obtain ⟨h1, h2⟩ := H
  cases hR : R.2 with
  | false =>
    have hm := List.mem_of_mem_dropLast hf
    exact hP f hm (h1 hR f hm)
  | true =>
    obtain ⟨init, last, e, hi, _⟩ := h2 hR
    rw [e, List.dropLast_concat] at hf
    have hm : f ∈ R.1 := by rw [e]; exact List.mem_append_left _ hf
    exact hP f hm (hi f hf)

/-- C8. For every payload segment list and every MTU (in particular every
MTU with MTU-20 ≥ 8), however far the loop has run: every call of
`sendfrag_ipv4` made by `Server::send`, and of `send_fragment` made by the
fragmenting branch of `Netserver_IPv6::send`, other than the last of the
sequence declares a payload length (`chunk`) that is a multiple of 8, and
every call declares a byte offset that is a multiple of 8. -/
theorem nonfinal_chunks_multiple_of_8 (mtu fuel : Nat) (iov : List iovec) (fuel6 : Nat)
    (iovs_in : List iovec) (iovlen : Nat) :
    ((∀ f ∈ (Server_send mtu fuel iov).1.dropLast, 8 ∣ f.chunk) ∧
      (∀ f ∈ (Server_send mtu fuel iov).1, 8 ∣ f.offset)) ∧
    (∀ calls returned,
        Netserver_IPv6_send fuel6 iovs_in iovlen = Sent6.fragmented calls returned →
        (∀ f ∈ calls.dropLast, 8 ∣ f.chunk) ∧ (∀ f ∈ calls, 8 ∣ f.offset)) := by
  have key : ∀ (M n : Nat) (r : List iovec),
      (∀ f ∈ (frag_loop M n [] r 0 0).1.dropLast, 8 ∣ f.chunk) ∧
      (∀ f ∈ (frag_loop M n [] r 0 0).1, 8 ∣ f.offset) := by
    intro M n r
    have ha := frag_loop_aligned M n [] r 0 0 rfl
    refine ⟨?_, fun f hf => Nat.dvd_of_mod_eq_zero (ha f hf).1⟩
    exact flags_shape_dropLast _ (frag_loop_flags M n [] r 0 0) (fun f => 8 ∣ f.chunk)
      (fun f hf hmf => Nat.dvd_of_mod_eq_zero ((ha f hf).2 hmf))
  refine ⟨key _ _ _, ?_⟩
  intro calls returned h
  unfold Netserver_IPv6_send at h
  simp only at h
  split at h
  · cases h
  · injection h with h1 _
    subst h1
    exact key _ _ _

/-- C9, as amended. For every payload segment list (lengths being `size_t`
values), a call of `Server::send` with MTU-20 ≥ 8, and a call of
`Netserver_IPv6::send` that takes the fragmenting branch, returns, and the
calls it made are a sequence `init ++ [last]` in which every call of `init`
carries the more-fragments flag and `last`, the final one, does not: exactly
one call has the flag clear.  For every MTU, every segment list and however
far the loop has run: as long as the function has not returned every call
made carries the flag, and once it has returned the calls are such a sequence
`init ++ [last]`. -/
theorem more_fragments_flag_pattern (mtu fuel : Nat) (hdr : iovec) (segs : List iovec)
    (fuel6 : Nat) (hdr6 : iovec) (segs6 : List iovec) (iovlen : Nat)
    (hM : 8 ≤ max_frag_ipv4 mtu)
    (hsz : ∀ v ∈ segs, v.iov_len < 2 ^ 64)
    (hfuel : total_len segs + segs.length + 1 ≤ fuel)
    (hbig : 1500 ≤ payload_length (hdr6 :: segs6) + 40)
    (hsz6 : ∀ v ∈ segs6, v.iov_len < 2 ^ 64)
    (hfuel6 : total_len segs6 + segs6.length + 1 ≤ fuel6) :
    ((Server_send mtu fuel (hdr :: segs)).2 = true ∧
      ∃ init last, (Server_send mtu fuel (hdr :: segs)).1 = init ++ [last] ∧
        (∀ f ∈ init, f.mf = true) ∧ last.mf = false) ∧
    (∃ init last,
      Netserver_IPv6_send fuel6 (hdr6 :: segs6) iovlen
        = Sent6.fragmented (init ++ [last]) true ∧
      (∀ f ∈ init, f.mf = true) ∧ last.mf = false) ∧
    (∀ (m n : Nat) (iov : List iovec),
      ((Server_send m n iov).2 = false → ∀ f ∈ (Server_send m n iov).1, f.mf = true) ∧
      ((Server_send m n iov).2 = true →
        ∃ init last, (Server_send m n iov).1 = init ++ [last] ∧
          (∀ f ∈ init, f.mf = true) ∧ last.mf = false)) ∧
    (∀ (n : Nat) (iovs : List iovec) (len : Nat) (calls : List Fragment) (returned : Bool),
      Netserver_IPv6_send n iovs len = Sent6.fragmented calls returned →
      (returned = false → ∀ f ∈ calls, f.mf = true) ∧
      (returned = true →
        ∃ init last, calls = init ++ [last] ∧
          (∀ f ∈ init, f.mf = true) ∧ last.mf = false)) := by
  refine ⟨?_, ?_, ?_, ?_⟩
  rotate_left 2
  · intro m n iov
    exact frag_loop_flags (max_frag_ipv4 m) n [] (iov.drop 1) 0 0
  · intro n iovs len calls returned h
    unfold Netserver_IPv6_send at h
    simp only at h
    split at h
    · cases h
    · injection h with h1 h2
      subst h1
      subst h2
      exact frag_loop_flags 1452 n [] (iovs.drop 1) 0 0
  · have hret : (Server_send mtu fuel (hdr :: segs)).2 = true :=
      frag_loop_returns _ hM fuel [] segs 0 0 hsz (by omega)
    exact ⟨hret, (frag_loop_flags _ fuel [] segs 0 0).2 hret⟩
  · have hret : (frag_loop 1452 fuel6 [] segs6 0 0).2 = true :=
      frag_loop_returns 1452 (by norm_num) fuel6 [] segs6 0 0 hsz6 (by omega)
    obtain ⟨init, last, e, hi, hl⟩ := (frag_loop_flags 1452 fuel6 [] segs6 0 0).2 hret
    refine ⟨init, last, ?_, hi, hl⟩
    unfold Netserver_IPv6_send
    simp only
    rw [if_neg (by omega)]
    simp only [List.drop_succ_cons, List.drop_zero]
    rw [← e, ← hret]

/-- The `unsigned` accumulation of `payload_length` is the true sum reduced
modulo `2^32`. -/
theorem foldl_len_mod (l : List iovec) :
    ∀ a : Nat, l.foldl (fun a b => (a + b.iov_len) % 2 ^ 32) a % 2 ^ 32
      = (a + total_len l) % 2 ^ 32 := by
  induction l with
  | nil => intro a; simp [total_len]
  | cons v l ih =>
    intro a
    simp only [List.foldl_cons, total_len]
    rw [ih]
    omega

theorem payload_length_eq (hdr : iovec) (segs : List iovec) (h : total_len segs < 2 ^ 32) :
    payload_length (hdr :: segs) = total_len segs := by
  unfold payload_length
  simp only [List.drop_succ_cons, List.drop_zero]
  have h1 := foldl_len_mod segs 0
  have h2 : ∀ (l : List iovec) (a : Nat), a < 2 ^ 32 →
      l.foldl (fun a b => (a + b.iov_len) % 2 ^ 32) a < 2 ^ 32 := by
    intro l
    induction l with
    | nil => intro a ha; simpa using ha
    | cons v l ih =>
      intro a _
      simp only [List.foldl_cons]
      exact ih _ (Nat.mod_lt _ (by norm_num))
  have h3 := h2 segs 0 (by norm_num)
  rw [Nat.mod_eq_of_lt h3, Nat.zero_add, Nat.mod_eq_of_lt h] at h1
  exact h1

/-- Tiling from the initial loop state, with the per-call slices. -/
theorem frag_loop_tiles_init (mem : Nat → Nat) (M : Nat) (hM : 8 ≤ M) (n : Nat)
    (segs : List iovec)
    (hT : total_len segs ≤ 65535)
    (hmem : ∀ v ∈ segs, v.iov_base + v.iov_len ≤ 2 ^ 64)
    (hfit : cuts_fit M n segs 0 = true)
    (hfuel : total_len segs + segs.length + 1 ≤ n) :
    (frag_loop M n [] segs 0 0).2 = true ∧
    (∀ f ∈ (frag_loop M n [] segs 0 0).1, total_len f.payload = f.chunk) ∧
    offsets_tile 0 (frag_loop M n [] segs 0 0).1 = true ∧
    (∀ f ∈ (frag_loop M n [] segs 0 0).1,
      iov_bytes mem f.payload = ((iov_bytes mem segs).drop f.offset).take f.chunk) ∧
    reassemble mem (frag_loop M n [] segs 0 0).1 = iov_bytes mem segs := by
  obtain ⟨h1, h2, h3, h4⟩ := frag_loop_tiles mem M hM n [] segs 0 0 rfl
    (by simp only [total_len]; omega) hmem hfit (by omega)
  rw [List.nil_append] at h4
  exact ⟨h1, h2, h3,
    slices_of_tile mem (iov_bytes mem segs) _ 0 h3 h2 (by rw [List.drop_zero, h4]), h4⟩

/-- C1, as amended. For `Server::send` with any MTU such that MTU-20 ≥ 8, and
for `Netserver_IPv6::send` on a payload of at least 1460 bytes (the
fragmenting branch): for every list of payload segments whose total length is
at most 65535, each a region of the 64-bit address space, and for which no
cut asks to remove more than the segment being cut holds, the function returns and the calls it made tile the payload: each
call hands over exactly as many payload bytes as the `chunk` it declares, the
declared offsets are the running sums of the declared lengths starting at 0,
each call carries the slice of the payload at its declared offset, and the
payloads concatenated in emission order are the bytes of the original
segments. -/
theorem fragments_tile_payload (mem : Nat → Nat)
    (mtu fuel : Nat) (hdr : iovec) (segs : List iovec)
    (fuel6 : Nat) (hdr6 : iovec) (segs6 : List iovec) (iovlen : Nat)
    (hM : 8 ≤ max_frag_ipv4 mtu)
    (hT : total_len segs ≤ 65535)
    (hmem : ∀ v ∈ segs, v.iov_base + v.iov_len ≤ 2 ^ 64)
    (hfit : cuts_fit (max_frag_ipv4 mtu) fuel segs 0 = true)
    (hfuel : total_len segs + segs.length + 1 ≤ fuel)
    (hbig : 1460 ≤ total_len segs6)
    (hT6 : total_len segs6 ≤ 65535)
    (hmem6 : ∀ v ∈ segs6, v.iov_base + v.iov_len ≤ 2 ^ 64)
    (hfit6 : cuts_fit 1452 fuel6 segs6 0 = true)
    (hfuel6 : total_len segs6 + segs6.length + 1 ≤ fuel6) :
    ((Server_send mtu fuel (hdr :: segs)).2 = true ∧
      (∀ f ∈ (Server_send mtu fuel (hdr :: segs)).1, total_len f.payload = f.chunk) ∧
      offsets_tile 0 (Server_send mtu fuel (hdr :: segs)).1 = true ∧
      (∀ f ∈ (Server_send mtu fuel (hdr :: segs)).1,
        iov_bytes mem f.payload = ((iov_bytes mem segs).drop f.offset).take f.chunk) ∧
      reassemble mem (Server_send mtu fuel (hdr :: segs)).1 = iov_bytes mem segs) ∧
    (∃ calls,
      Netserver_IPv6_send fuel6 (hdr6 :: segs6) iovlen = Sent6.fragmented calls true ∧
      (∀ f ∈ calls, total_len f.payload = f.chunk) ∧
      offsets_tile 0 calls = true ∧
      (∀ f ∈ calls,
        iov_bytes mem f.payload = ((iov_bytes mem segs6).drop f.offset).take f.chunk) ∧
      reassemble mem calls = iov_bytes mem segs6) := by
  constructor
  · exact frag_loop_tiles_init mem _ hM fuel segs hT hmem hfit hfuel
  · obtain ⟨h1, h2, h3, h4, h5⟩ :=
      frag_loop_tiles_init mem 1452 (by norm_num) fuel6 segs6 hT6 hmem6 hfit6 hfuel6
    refine ⟨(frag_loop 1452 fuel6 [] segs6 0 0).1, ?_, h2, h3, h4, h5⟩
    have hp : payload_length (hdr6 :: segs6) = total_len segs6 :=
      payload_length_eq hdr6 segs6 (by omega)
    unfold Netserver_IPv6_send
    simp only
    rw [if_neg (by omega)]
    simp only [List.drop_succ_cons, List.drop_zero]
    rw [← h1]

/-- C1, counterexample to the claim as stated (any lengths): with MTU 1500 and
one payload segment of 66601 bytes, `Server::send` returns after 46 calls; the
first 45 declare 1480 bytes each, 66600 in all, and the last one declares
offset 1064 through the `uint16_t` parameter, so the declared offsets do not
tile the payload. -/
theorem fragments_tile_payload_counterexample :
    8 ≤ max_frag_ipv4 1500 ∧
    max_frag_ipv4 1500 < total_len [⟨100, 66601⟩] ∧
    (Server_send 1500 47 [⟨0, 20⟩, ⟨100, 66601⟩]).2 = true ∧
    ((Server_send 1500 47 [⟨0, 20⟩, ⟨100, 66601⟩]).1.dropLast.map Fragment.chunk).sum = 66600 ∧
    (Server_send 1500 47 [⟨0, 20⟩, ⟨100, 66601⟩]).1.getLast?
      = some ⟨1064, 1, [⟨66700, 1⟩], false⟩ ∧
    offsets_tile 0 (Server_send 1500 47 [⟨0, 20⟩, ⟨100, 66601⟩]).1 = false := by
  decide

/-- C3. Evaluation at a frame whose version nibble is 5: the frame is neither
dropped nor rejected; its first eight bytes are read as a UDP header
(source port 0x5035, destination port 8053) and, for every behaviour of the
DNS execute step, `handle_packet` invokes it on the rest and calls `send`
whenever it answers true; with an execute step that appends one 12-byte
segment and answers true, `send` is called on the UDP header and that
segment. -/
theorem handle_packet_version5_answers
    (execute : ReadBuffer → List iovec → Bool × List iovec) :
    handle_packet 8053 execute 1000 2000
        [0x50, 0x35, 0x1f, 0x75, 0, 20, 0, 0, 0xab, 0xcd, 1, 0, 0, 1, 0, 0, 0, 0, 0, 0] 20
      = (match execute
            ⟨[0x50, 0x35, 0x1f, 0x75, 0, 20, 0, 0, 0xab, 0xcd, 1, 0, 0, 1, 0, 0, 0, 0, 0, 0],
              20, 8⟩ [⟨2000, 8⟩] with
         | (true, iov) => Outcome.send iov
         | (false, _) => Outcome.no_answer) ∧
    handle_packet 8053 (fun _ iov => (true, iov ++ [⟨7000, 12⟩])) 1000 2000
        [0x50, 0x35, 0x1f, 0x75, 0, 20, 0, 0, 0xab, 0xcd, 1, 0, 0, 1, 0, 0, 0, 0, 0, 0] 20
      = Outcome.send [⟨2000, 8⟩, ⟨7000, 12⟩] := by
  exact ⟨rfl, rfl⟩

/-- C4. Evaluation at the one-byte frame `0x40` (version 4, header-length
nibble 0): the length check passes (`available() = 1 ≥ ihl = 0`) and the typed
read of the 20-byte header is issued with one byte available. -/
theorem handle_packet_short_header_read
    (execute : ReadBuffer → List iovec → Bool × List iovec) :
    handle_packet 8053 execute 1000 2000 [0x40] 1 = Outcome.short_read 20 1 := by
  rfl

/-- C5. Evaluation of the capture workaround at two 46-byte frames.  IPv4,
header length 20 and total-length field 10: the cursor is replaced by one over
10 bytes and the re-positioning read asks for 20.  IPv6, payload-length
field 6 (a well-formed 46-byte packet): the cursor is replaced by one over 6
bytes and the re-positioning read asks for 40. -/
theorem rebase_reads_past_span
    (execute : ReadBuffer → List iovec → Bool × List iovec)
    (addr : List in6_addr) (registered : Nat → Bool) :
    handle_packet 8053 execute 1000 2000
        ([0x45, 0, 0, 10, 0, 0, 0, 0, 64, 17] ++ List.replicate 36 0) 46
      = Outcome.short_read 20 10 ∧
    Netserver_IPv6_recv addr registered
        ⟨[0x60, 0, 0, 0, 0, 6, 17, 64] ++ List.replicate 38 0, 46, 0⟩
      = Recv6.short_read 40 6 := by
  exact ⟨rfl, rfl⟩

/-- C6. Evaluation at a chain of two well-formed skippable headers (Hop-by-Hop
then Destination Options, both with length field 0) followed by UDP: called
with the first header's type, `skip_extension_headers` consumes 8 bytes and
returns 60, the type of the second header, not 17 after 16 bytes. -/
theorem skip_stops_after_one_header :
    skip_extension_headers
        ⟨[60, 0, 0, 0, 0, 0, 0, 0, 17, 0, 0, 0, 0, 0, 0, 0], 16, 0⟩ IPPROTO_HOPOPTS
      = SkipResult.ret IPPROTO_DSTOPTS
          ⟨[60, 0, 0, 0, 0, 0, 0, 0, 17, 0, 0, 0, 0, 0, 0, 0], 16, 8⟩ := by
  decide

/-- C7. Evaluation at a chain of one well-formed Hop-by-Hop header whose
next-header value is Fragment (44): `skip_extension_headers` returns 44, not
the drop value 59. -/
theorem skip_passes_fragment_behind_header :
    skip_extension_headers ⟨[44, 0, 0, 0, 0, 0, 0, 0], 8, 0⟩ IPPROTO_HOPOPTS
      = SkipResult.ret IPPROTO_FRAGMENT ⟨[44, 0, 0, 0, 0, 0, 0, 0], 8, 8⟩ := by
  decide

/-! ## Address matching -/

theorem memcmp_eq_zero_iff (n : Nat) :
    ∀ p q : Nat → Nat, memcmp p q n = 0 ↔ ∀ i < n, p i = q i := by
  induction n with
  | zero => intro p q; simp [memcmp]
  | succ n ih =>
    intro p q
    by_cases h : p 0 = q 0
    · simp only [memcmp, if_pos h]
      rw [ih]
      constructor
      · intro H i hi
        cases i with
        | zero => exact h
        | succ i => exact H i (by omega)
      · intro H i hi
        exact H (i + 1) (by omega)
    · simp only [memcmp, if_neg h]
      constructor
      · intro H
        exact absurd (by omega : p 0 = q 0) h
      · intro H
        exact absurd (H 0 (by omega)) h

theorem in6_addr_ptr_lt (a : in6_addr) (i : Nat) (h : i < 16) :
    a.ptr i = a.s6_addr ⟨i, h⟩ := by
  simp [in6_addr.ptr, h]

theorem match_exact_iff (list : List in6_addr) (a : in6_addr) :
    match_exact list a = true ↔ a ∈ list := by
  unfold match_exact
  simp only [List.any_eq_true, decide_eq_true_eq, memcmp_eq_zero_iff]
  constructor
  · rintro ⟨h, hm, H⟩
    have : a = h := by
      cases a with
      | mk fa =>
        cases h with
        | mk fh =>
          congr
          funext i
          have := H i.val i.isLt
          simpa [in6_addr.ptr] using this
    rw [this]; exact hm
  · intro hm
    exact ⟨a, hm, fun _ _ => rfl⟩

theorem match_solicited_iff (list : List in6_addr) (a : in6_addr) :
    match_solicited list a = true ↔
      (∀ i : Fin 16, i.val < 13 → a.s6_addr i = solicited_node_prefix.getD i.val 0) ∧
      ∃ h ∈ list, ∀ i : Fin 16, 13 ≤ i.val → a.s6_addr i = h.s6_addr i := by
  have hpre : memcmp a.ptr solicit_prefix.ptr 13 = 0 ↔
      ∀ i : Fin 16, i.val < 13 → a.s6_addr i = solicited_node_prefix.getD i.val 0 := by
    rw [memcmp_eq_zero_iff]
    constructor
    · intro H i hi
      have h1 := H i.val hi
      rw [in6_addr_ptr_lt a i.val i.isLt] at h1
      rw [h1]
      obtain ⟨i, hi16⟩ := i
      simp only at hi
      interval_cases i <;> rfl
    · intro H i hi
      have h1 := H ⟨i, by omega⟩ hi
      rw [in6_addr_ptr_lt a i (by omega), h1]
      interval_cases i <;> rfl
  have htail : ∀ h : in6_addr,
      memcmp (fun i => a.ptr (13 + i)) (fun i => h.ptr (13 + i)) 3 = 0 ↔
      ∀ i : Fin 16, 13 ≤ i.val → a.s6_addr i = h.s6_addr i := by
    intro h
    rw [memcmp_eq_zero_iff]
    constructor
    · intro H i hi
      have h1 := H (i.val - 13) (by omega)
      have e : 13 + (i.val - 13) = i.val := by omega
      simp only [e] at h1
      rw [in6_addr_ptr_lt a i.val i.isLt, in6_addr_ptr_lt h i.val i.isLt] at h1
      exact h1
    · intro H i hi
      have h1 := H ⟨13 + i, by omega⟩ (by simp)
      rw [in6_addr_ptr_lt a (13 + i) (by omega), in6_addr_ptr_lt h (13 + i) (by omega)]
      exact h1
  unfold match_solicited
  by_cases hp : memcmp a.ptr solicit_prefix.ptr 13 = 0
  · simp only [hp, ne_eq, not_true_eq_false, if_false, List.any_eq_true, decide_eq_true_eq,
      htail]
    constructor
    · intro H; exact ⟨hpre.mp hp, H⟩
    · intro H; exact H.2
  · simp only [ne_eq, hp, not_false_eq_true, if_true]
    constructor
    · intro H; cases H
    · intro H; exact absurd (hpre.mpr H.1) hp

/-- C10. Characterisation of address matching: for every list of held
addresses and every 16-byte address `a`, `Netserver_IPv6::match(a)` is true if
and only if `a` equals some held address, or the first 13 bytes of `a` are
the solicited-node prefix ff02:0:0:0:0:1:ff and the last 3 bytes of `a` equal
the last 3 bytes of some held address. -/
theorem match_characterisation (addr : List in6_addr) (a : in6_addr) :
    Netserver_IPv6_match addr a = true ↔
      (a ∈ addr) ∨
      ((∀ i : Fin 16, i.val < 13 → a.s6_addr i = solicited_node_prefix.getD i.val 0) ∧
        ∃ h ∈ addr, ∀ i : Fin 16, 13 ≤ i.val → a.s6_addr i = h.s6_addr i) := by
  unfold Netserver_IPv6_match
  rw [Bool.or_eq_true, match_exact_iff, match_solicited_iff]

/-! ## The ghost predicate on aligned fragment sizes, and where it fails -/

/-- When `max_frag` is a multiple of 8 no rounding takes place and every cut
fits, as long as the `unsigned` sum does not wrap. -/
theorem cuts_fit_of_aligned (M : Nat) (hM : M % 8 = 0) :
    ∀ (n : Nat) (r : List iovec) (c : Nat), c ≤ M → c + total_len r < 2 ^ 32 →
      cuts_fit M n r c = true := by
  intro n
  induction n with
  | zero => intro r c _ _; cases r <;> rfl
  | succ n ih =>
    intro r c hc hT
    cases r with
    | nil => rfl
    | cons v r =>
      simp only [total_len] at hT
      have hmod : (c + v.iov_len) % 2 ^ 32 = c + v.iov_len := Nat.mod_eq_of_lt (by omega)
      by_cases h : M < (c + v.iov_len) % 2 ^ 32
      · rw [cuts_fit_cut M n r v c h, Bool.and_eq_true, decide_eq_true_eq]
        refine ⟨by omega, ih _ _ (Nat.zero_le _) ?_⟩
        simp only [total_len]
        rw [left_len_eq M c v (by omega)]
        omega
      · rw [cuts_fit_keep M n r v c h]
        exact ih _ _ (by omega) (by omega)

/-- Evaluation of the fragmenting branch of `Netserver_IPv6::send` on payload
segments of 1450 and 10 bytes: the running chunk reaches 1460, the cut point
is rounded down to 1448, below the start of the second segment, and the
`size_t` subtraction `vec.iov_len -= excess` (10 - 12) wraps; the left-over
iovec starts two bytes before the second segment. -/
theorem cut_wraps_in_rounding_zone :
    Netserver_IPv6_send 10 [⟨0, 40⟩, ⟨100, 1450⟩, ⟨2000, 10⟩] 3
      = Sent6.fragmented
          [⟨0, 1448, [⟨100, 1450⟩, ⟨2000, 2 ^ 64 - 2⟩], true⟩,
           ⟨1448, 12, [⟨1998, 12⟩], false⟩] true ∧
    cuts_fit 1452 10 [⟨100, 1450⟩, ⟨2000, 10⟩] 0 = false := by
  decide

/-! ## Witnesses -/

/-- Witness of `fragments_tile_payload`: MTU 1500 with one payload segment of
3000 bytes for IPv4; payload segments of 8 and 3000 bytes for IPv6. -/
theorem fragments_tile_payload_witness :
    (8 ≤ max_frag_ipv4 1500 ∧
      cuts_fit (max_frag_ipv4 1500) 3002 [⟨100, 3000⟩] 0 = true ∧
      cuts_fit 1452 3011 [⟨100, 8⟩, ⟨200, 3000⟩] 0 = true) ∧
    ((Server_send 1500 3002 [⟨0, 20⟩, ⟨100, 3000⟩]).2 = true ∧
      offsets_tile 0 (Server_send 1500 3002 [⟨0, 20⟩, ⟨100, 3000⟩]).1 = true ∧
      reassemble (fun a => a % 251) (Server_send 1500 3002 [⟨0, 20⟩, ⟨100, 3000⟩]).1
        = iov_bytes (fun a => a % 251) [⟨100, 3000⟩]) ∧
    (∃ calls,
      Netserver_IPv6_send 3011 [⟨0, 40⟩, ⟨100, 8⟩, ⟨200, 3000⟩] 3
        = Sent6.fragmented calls true ∧
      offsets_tile 0 calls = true ∧
      reassemble (fun a => a % 251) calls
        = iov_bytes (fun a => a % 251) [⟨100, 8⟩, ⟨200, 3000⟩]) := by
  have h := fragments_tile_payload (fun a => a % 251)
    1500 3002 ⟨0, 20⟩ [⟨100, 3000⟩] 3011 ⟨0, 40⟩ [⟨100, 8⟩, ⟨200, 3000⟩] 3
    (by decide) (by decide) (by decide) (by decide) (by decide)
    (by decide) (by decide) (by decide) (by decide) (by decide)
  obtain ⟨⟨a1, _, a3, _, a5⟩, calls, b1, _, b3, _, b5⟩ := h
  exact ⟨⟨by decide, by decide, by decide⟩, ⟨a1, a3, a5⟩, calls, b1, b3, b5⟩

/-- Witness of `send_mtu_bounded` at MTU 1500. -/
theorem send_mtu_bounded_witness :
    20 ≤ 1500 ∧
    ((∀ f ∈ (Server_send 1500 10 [⟨0, 20⟩, ⟨100, 3000⟩]).1, ip_len f ≤ 1500) ∧
      (∀ plen sent,
        Netserver_IPv6_send 10 [⟨0, 40⟩, ⟨100, 3000⟩] 2 = Sent6.whole plen sent →
        40 + plen ≤ 1500) ∧
      (∀ calls returned,
        Netserver_IPv6_send 10 [⟨0, 40⟩, ⟨100, 3000⟩] 2 = Sent6.fragmented calls returned →
        ∀ f ∈ calls, 40 + ip6_plen f ≤ 1500)) :=
  ⟨by decide,
    send_mtu_bounded 1500 10 [⟨0, 20⟩, ⟨100, 3000⟩] 10 [⟨0, 40⟩, ⟨100, 3000⟩] 2 (by decide)⟩

/-- Witness of `more_fragments_flag_pattern`: MTU 1500 and a 3000-byte
payload segment on both paths. -/
theorem more_fragments_flag_pattern_witness :
    (8 ≤ max_frag_ipv4 1500 ∧ 1500 ≤ payload_length [⟨0, 40⟩, ⟨100, 3000⟩] + 40) ∧
    ((Server_send 1500 3002 [⟨0, 20⟩, ⟨100, 3000⟩]).2 = true ∧
      ∃ init last, (Server_send 1500 3002 [⟨0, 20⟩, ⟨100, 3000⟩]).1 = init ++ [last] ∧
        (∀ f ∈ init, f.mf = true) ∧ last.mf = false) ∧
    (∃ init last,
      Netserver_IPv6_send 3002 [⟨0, 40⟩, ⟨100, 3000⟩] 2
        = Sent6.fragmented (init ++ [last]) true ∧
      (∀ f ∈ init, f.mf = true) ∧ last.mf = false) := by
  have h := more_fragments_flag_pattern 1500 3002 ⟨0, 20⟩ [⟨100, 3000⟩]
    3002 ⟨0, 40⟩ [⟨100, 3000⟩] 2
    (by decide) (by decide) (by decide) (by decide) (by decide) (by decide)
  exact ⟨⟨by decide, by decide⟩, h.1, h.2.1⟩

/-! ## A fragment size below 8 -/

/-- With `max_frag = 4` and one 5-byte segment the loop never leaves its
initial state: the rounded fragment size is 0, each iteration cuts the segment
at 0 bytes, makes a call with the flag set that declares 0 bytes, and is left
with the same 5-byte segment. -/
theorem frag_loop_stuck :
    ∀ n : Nat, frag_loop 4 n [] [⟨100, 5⟩] 0 0
      = (List.replicate n ⟨0, 0, [⟨100, 0⟩], true⟩, false) := by
  intro n
  induction n with
  | zero => rfl
  | succ n ih =>
    have h : 4 < (0 + (iovec.mk 100 5).iov_len) % 2 ^ 32 := by decide
    rw [frag_loop_cut 4 n [] [] ⟨100, 5⟩ 0 0 h]
    have e1 : cut_len 4 0 ⟨100, 5⟩ = 0 := by decide
    have e2 : ((0 + (4 - 4 % 8)) % 2 ^ 32 : Nat) = 0 := by decide
    simp only [e1, e2]
    have e3 : (iovec.mk ((100 + 0) % 2 ^ 64) ((5 + 2 ^ 64 - 0) % 2 ^ 64)) = ⟨100, 5⟩ := by
      decide
    rw [e3, ih]
    rfl

/-- C9, counterexample to the claim as stated (no condition on the MTU): with
MTU 24 (`max_frag = 4`) and one payload segment of 5 bytes, `Server::send`
never returns; after any number of iterations every call made carries the
more-fragments flag, so no call has the flag clear. -/
theorem more_fragments_flag_pattern_counterexample :
    max_frag_ipv4 24 = 4 ∧
    ∀ fuel : Nat,
      (Server_send 24 fuel [⟨0, 20⟩, ⟨100, 5⟩]).2 = false ∧
      (Server_send 24 fuel [⟨0, 20⟩, ⟨100, 5⟩]).1.length = fuel ∧
      ∀ f ∈ (Server_send 24 fuel [⟨0, 20⟩, ⟨100, 5⟩]).1, f.mf = true := by
  refine ⟨by decide, fun fuel => ?_⟩
  have e : Server_send 24 fuel [⟨0, 20⟩, ⟨100, 5⟩]
      = (List.replicate fuel ⟨0, 0, [⟨100, 0⟩], true⟩, false) := frag_loop_stuck fuel
  rw [e]
  refine ⟨rfl, by simp, ?_⟩
  intro f hf
  rw [List.eq_of_mem_replicate hf]

/-! ## The L3 step and the capture workaround -/

theorem handle_packet_eq (port : Nat) (execute : ReadBuffer → List iovec → Bool × List iovec)
    (ip4_out udp_out : Nat) (buffer : List Nat) (buflen : Nat) (h0 : buflen ≠ 0) :
    handle_packet port execute ip4_out udp_out buffer buflen
      = (match l3_step ip4_out buffer buflen with
         | L3Step.dropped => Outcome.dropped
         | L3Step.short_read r a => Outcome.short_read r a
         | L3Step.proceed cur iov =>
           if cur.available < 8 then Outcome.dropped else
           match cur.read 8 with
           | none => Outcome.short_read 8 cur.available
           | some cur1 =>
             if cur.be16 2 ≠ port then Outcome.dropped else
             if cur.be16 0 = 0 ∨ cur.be16 0 = 7 ∨ cur.be16 0 = 123 then Outcome.dropped else
             match execute cur1 (iov ++ [⟨udp_out, 8⟩]) with
             | (true, iov) => Outcome.send iov
             | (false, _) => Outcome.no_answer) := by
  unfold handle_packet l3_step
  rw [if_neg h0]

/-- The branch `handle_ipv4` is `ipv4_after_workaround` followed by the
UDP-only test on the protocol byte of the header. -/
theorem handle_ipv4_eq (ip4_out : Nat) (buffer : List Nat) (cur : ReadBuffer) :
    handle_ipv4 ip4_out buffer cur
      = (match ipv4_after_workaround ip4_out buffer cur with
         | L3Step.proceed c iov =>
           if cur.peek 9 ≠ IPPROTO_UDP then L3Step.dropped else L3Step.proceed c iov
         | L3Step.dropped => L3Step.dropped
         | L3Step.short_read r a => L3Step.short_read r a) := by
  unfold handle_ipv4 ipv4_after_workaround
  simp only
  by_cases h1 : cur.available < 4 * (cur.peek 0 &&& 0x0f)
  · simp only [if_pos h1]
  · simp only [if_neg h1]
    cases cur.read 20 with
    | none => rfl
    | some cur1 =>
      simp only
      generalize (if 4 * (cur.peek 0 &&& 0x0f) > 20
        then cur1.read (4 * (cur.peek 0 &&& 0x0f) - 20) else some cur1) = sk
      cases sk with
      | none => rfl
      | some cur2 =>
        simp only
        by_cases h46 : cur2.size = 46
        · simp only [if_pos h46]
          by_cases hL : cur.be16 2 < 46
          · simp only [if_pos hL]
            cases (ReadBuffer.mk buffer (cur.be16 2) 0).read cur2.position with
            | none => rfl
            | some cur3 => rfl
          · simp only [if_neg hL]
        · simp only [if_neg h46]

/-- The cursor after the fixed header and the options of a frame with header
length `4 * n ≥ 20` that fits the frame: the workaround is entered with the
cursor at offset `4 * n`. -/
theorem ipv4_after_workaround_eq (ip4_out : Nat) (buffer : List Nat) (buflen n : Nat)
    (hn : (ReadBuffer.mk buffer buflen 0).peek 0 &&& 0x0f = n)
    (h20 : 20 ≤ 4 * n) (hfit : 4 * n ≤ buflen) :
    ipv4_after_workaround ip4_out buffer ⟨buffer, buflen, 0⟩
      = (if buflen = 46 then
          if (ReadBuffer.mk buffer buflen 0).be16 2 < 46 then
            match (ReadBuffer.mk buffer ((ReadBuffer.mk buffer buflen 0).be16 2) 0).read (4 * n) with
            | none => L3Step.short_read (4 * n) ((ReadBuffer.mk buffer buflen 0).be16 2)
            | some cur3 => L3Step.proceed cur3 [⟨ip4_out, 20⟩]
          else L3Step.proceed ⟨buffer, buflen, 4 * n⟩ [⟨ip4_out, 20⟩]
        else L3Step.proceed ⟨buffer, buflen, 4 * n⟩ [⟨ip4_out, 20⟩]) := by
  have hr20 : (ReadBuffer.mk buffer buflen 0).read 20 = some ⟨buffer, buflen, 20⟩ := by
    have : ¬ buflen < 20 := by omega
    simp [ReadBuffer.read, ReadBuffer.available, this]
  have hsk : (if 4 * n > 20 then (ReadBuffer.mk buffer buflen 20).read (4 * n - 20)
      else some ⟨buffer, buflen, 20⟩) = some ⟨buffer, buflen, 4 * n⟩ := by
    by_cases h : 4 * n > 20
    · rw [if_pos h]
      have h1 : ¬ buflen - 20 < 4 * n - 20 := by omega
      have h2 : 20 + (4 * n - 20) = 4 * n := by omega
      simp [ReadBuffer.read, ReadBuffer.available, h1, h2]
    · rw [if_neg h]
      have : 4 * n = 20 := by omega
      rw [this]
  have hav : ¬ (ReadBuffer.mk buffer buflen 0).available < 4 * n := by
    simp [ReadBuffer.available]; omega
  unfold ipv4_after_workaround
  simp only [hn, if_neg hav, hr20, hsk]

/-- Re-based case of the workaround: a 46-byte frame whose total-length field
`L` satisfies `4 * n ≤ L < 46` leaves the workaround with the cursor over the
first `L` bytes at offset `4 * n`. -/
theorem ipv4_after_workaround_rebased (ip4_out : Nat) (buffer : List Nat) (buflen n L : Nat)
    (hn : (ReadBuffer.mk buffer buflen 0).peek 0 &&& 0x0f = n)
    (hL : (ReadBuffer.mk buffer buflen 0).be16 2 = L)
    (h20 : 20 ≤ 4 * n) (h46 : buflen = 46) (hlo : 4 * n ≤ L) (hhi : L < 46) :
    ipv4_after_workaround ip4_out buffer ⟨buffer, buflen, 0⟩
      = L3Step.proceed ⟨buffer, L, 4 * n⟩ [⟨ip4_out, 20⟩] := by
  rw [ipv4_after_workaround_eq ip4_out buffer buflen n hn h20 (by omega), hL,
    if_pos h46, if_pos hhi]
  have h1 : ¬ L < 4 * n := by omega
  simp [ReadBuffer.read, ReadBuffer.available, h1]

/-- Unchanged case of the workaround: a frame holding its header that is not
46 bytes long, or whose total-length field is at least 46, leaves the
workaround with the cursor of the header read. -/
theorem ipv4_after_workaround_unchanged (ip4_out : Nat) (buffer : List Nat) (buflen n L : Nat)
    (hn : (ReadBuffer.mk buffer buflen 0).peek 0 &&& 0x0f = n)
    (hL : (ReadBuffer.mk buffer buflen 0).be16 2 = L)
    (h20 : 20 ≤ 4 * n) (hfit : 4 * n ≤ buflen) (hcase : buflen ≠ 46 ∨ 46 ≤ L) :
    ipv4_after_workaround ip4_out buffer ⟨buffer, buflen, 0⟩
      = L3Step.proceed ⟨buffer, buflen, 4 * n⟩ [⟨ip4_out, 20⟩] := by
  rw [ipv4_after_workaround_eq ip4_out buffer buflen n hn h20 hfit, hL]
  rcases hcase with h | h
  · rw [if_neg h]
  · by_cases h46 : buflen = 46
    · rw [if_pos h46, if_neg (by omega)]
    · rw [if_neg h46]

/-- What `handle_packet` does with a version-4 frame whose L3 part leaves the
workaround with the cursor over `S` bytes at offset `p`: the UDP-only test,
then the UDP stage on that cursor. -/
theorem handle_packet_ipv4_at (port : Nat)
    (execute : ReadBuffer → List iovec → Bool × List iovec)
    (ip4_out udp_out : Nat) (buffer : List Nat) (buflen S p : Nat)
    (hver : ((ReadBuffer.mk buffer buflen 0).peek 0 >>> 4) &&& 0x0f = 4)
    (h0 : buflen ≠ 0)
    (h : ipv4_after_workaround ip4_out buffer ⟨buffer, buflen, 0⟩
      = L3Step.proceed ⟨buffer, S, p⟩ [⟨ip4_out, 20⟩]) :
    handle_ipv4 ip4_out buffer ⟨buffer, buflen, 0⟩
      = (if (ReadBuffer.mk buffer buflen 0).peek 9 ≠ IPPROTO_UDP then L3Step.dropped
         else L3Step.proceed ⟨buffer, S, p⟩ [⟨ip4_out, 20⟩]) ∧
    handle_packet port execute ip4_out udp_out buffer buflen
      = (if (ReadBuffer.mk buffer buflen 0).peek 9 ≠ IPPROTO_UDP then Outcome.dropped else
         if S - p < 8 then Outcome.dropped else
         if (ReadBuffer.mk buffer S p).be16 2 ≠ port then Outcome.dropped else
         if (ReadBuffer.mk buffer S p).be16 0 = 0 ∨ (ReadBuffer.mk buffer S p).be16 0 = 7 ∨
            (ReadBuffer.mk buffer S p).be16 0 = 123 then Outcome.dropped else
         match execute ⟨buffer, S, p + 8⟩ [⟨ip4_out, 20⟩, ⟨udp_out, 8⟩] with
         | (true, iov) => Outcome.send iov
         | (false, _) => Outcome.no_answer) := by
  have h4 : handle_ipv4 ip4_out buffer ⟨buffer, buflen, 0⟩
      = (if (ReadBuffer.mk buffer buflen 0).peek 9 ≠ IPPROTO_UDP then L3Step.dropped
         else L3Step.proceed ⟨buffer, S, p⟩ [⟨ip4_out, 20⟩]) := by
    rw [handle_ipv4_eq, h]
  refine ⟨h4, ?_⟩
  have hl : l3_step ip4_out buffer buflen = handle_ipv4 ip4_out buffer ⟨buffer, buflen, 0⟩ := by
    unfold l3_step
    simp only [hver, if_true]
  rw [handle_packet_eq port execute ip4_out udp_out buffer buflen h0, hl, h4]
  by_cases hp : (ReadBuffer.mk buffer buflen 0).peek 9 ≠ IPPROTO_UDP
  · rw [if_pos hp, if_pos hp]
  · rw [if_neg hp, if_neg hp]
    simp only
    have hav : (ReadBuffer.mk buffer S p).available = S - p := rfl
    rw [hav]
    by_cases h8 : S - p < 8
    · rw [if_pos h8, if_pos h8]
    · rw [if_neg h8, if_neg h8]
      have hr : (ReadBuffer.mk buffer S p).read 8 = some ⟨buffer, S, p + 8⟩ := by
        simp [ReadBuffer.read, ReadBuffer.available, h8]
      rw [hr]
      rfl

/-- C14. IPv4 capture-length workaround, on `handle_ipv4` and `handle_packet`:
for a frame with version nibble 4 and header length `ihl = 4 * n` with
`20 ≤ ihl`, `handle_packet` takes the IPv4 branch.  If the frame is 46 bytes
long and its total-length field `L` satisfies `ihl ≤ L < 46`, then the
workaround leaves the cursor over exactly the first `L` bytes of the frame at
offset `ihl`, so exactly `L - ihl` bytes are available to UDP parsing:
`handle_ipv4` hands that cursor on (unless the protocol is not UDP), and
`handle_packet` runs its UDP stage on it, dropping the frame when
`L - ihl < 8` and otherwise handing DNS execution the cursor over `L` bytes at
offset `ihl + 8`.  When the frame (holding at least the header) is not 46
bytes long or `L ≥ 46`, the same holds with the cursor left by the header
read, over the whole frame at offset `ihl`. -/
theorem capture_workaround_ipv4 (port : Nat)
    (execute : ReadBuffer → List iovec → Bool × List iovec)
    (ip4_out udp_out : Nat) (buffer : List Nat) (buflen n L : Nat)
    (hver : ((ReadBuffer.mk buffer buflen 0).peek 0 >>> 4) &&& 0x0f = 4)
    (hn : (ReadBuffer.mk buffer buflen 0).peek 0 &&& 0x0f = n)
    (hL : (ReadBuffer.mk buffer buflen 0).be16 2 = L)
    (h20 : 20 ≤ 4 * n) :
    l3_step ip4_out buffer buflen = handle_ipv4 ip4_out buffer ⟨buffer, buflen, 0⟩ ∧
    (buflen = 46 → 4 * n ≤ L → L < 46 →
      ipv4_after_workaround ip4_out buffer ⟨buffer, buflen, 0⟩
        = L3Step.proceed ⟨buffer, L, 4 * n⟩ [⟨ip4_out, 20⟩] ∧
      (ReadBuffer.mk buffer L (4 * n)).available = L - 4 * n ∧
      handle_ipv4 ip4_out buffer ⟨buffer, buflen, 0⟩
        = (if (ReadBuffer.mk buffer buflen 0).peek 9 ≠ IPPROTO_UDP then L3Step.dropped
           else L3Step.proceed ⟨buffer, L, 4 * n⟩ [⟨ip4_out, 20⟩]) ∧
      handle_packet port execute ip4_out udp_out buffer buflen
        = (if (ReadBuffer.mk buffer buflen 0).peek 9 ≠ IPPROTO_UDP then Outcome.dropped else
           if L - 4 * n < 8 then Outcome.dropped else
           if (ReadBuffer.mk buffer L (4 * n)).be16 2 ≠ port then Outcome.dropped else
           if (ReadBuffer.mk buffer L (4 * n)).be16 0 = 0 ∨
              (ReadBuffer.mk buffer L (4 * n)).be16 0 = 7 ∨
              (ReadBuffer.mk buffer L (4 * n)).be16 0 = 123 then Outcome.dropped else
           match execute ⟨buffer, L, 4 * n + 8⟩ [⟨ip4_out, 20⟩, ⟨udp_out, 8⟩] with
           | (true, iov) => Outcome.send iov
           | (false, _) => Outcome.no_answer)) ∧
    (4 * n ≤ buflen → (buflen ≠ 46 ∨ 46 ≤ L) →
      ipv4_after_workaround ip4_out buffer ⟨buffer, buflen, 0⟩
        = L3Step.proceed ⟨buffer, buflen, 4 * n⟩ [⟨ip4_out, 20⟩] ∧
      handle_ipv4 ip4_out buffer ⟨buffer, buflen, 0⟩
        = (if (ReadBuffer.mk buffer buflen 0).peek 9 ≠ IPPROTO_UDP then L3Step.dropped
           else L3Step.proceed ⟨buffer, buflen, 4 * n⟩ [⟨ip4_out, 20⟩]) ∧
      handle_packet port execute ip4_out udp_out buffer buflen
        = (if (ReadBuffer.mk buffer buflen 0).peek 9 ≠ IPPROTO_UDP then Outcome.dropped else
           if buflen - 4 * n < 8 then Outcome.dropped else
           if (ReadBuffer.mk buffer buflen (4 * n)).be16 2 ≠ port then Outcome.dropped else
           if (ReadBuffer.mk buffer buflen (4 * n)).be16 0 = 0 ∨
              (ReadBuffer.mk buffer buflen (4 * n)).be16 0 = 7 ∨
              (ReadBuffer.mk buffer buflen (4 * n)).be16 0 = 123 then Outcome.dropped else
           match execute ⟨buffer, buflen, 4 * n + 8⟩ [⟨ip4_out, 20⟩, ⟨udp_out, 8⟩] with
           | (true, iov) => Outcome.send iov
           | (false, _) => Outcome.no_answer)) := by
  refine ⟨?_, ?_, ?_⟩
  · unfold l3_step
    simp only [hver, if_true]
  · intro h46 hlo hhi
    have hw := ipv4_after_workaround_rebased ip4_out buffer buflen n L hn hL h20 h46 hlo hhi
    have hp := handle_packet_ipv4_at port execute ip4_out udp_out buffer buflen L (4 * n)
      hver (by omega) hw
    exact ⟨hw, rfl, hp.1, hp.2⟩
  · intro hfit hcase
    have hw := ipv4_after_workaround_unchanged ip4_out buffer buflen n L hn hL h20 hfit hcase
    have hp := handle_packet_ipv4_at port execute ip4_out udp_out buffer buflen buflen (4 * n)
      hver (by omega) hw
    exact ⟨hw, hp.1, hp.2⟩

/-- Witness of `capture_workaround_ipv4`: the 46-byte frame of a 40-byte
IPv4/UDP packet (20-byte header, source port 5000, destination port 8053,
12 bytes behind the UDP header, 6 bytes of padding).  The branch `handle_ipv4`
hands on the cursor over 40 bytes at offset 20, with 20 bytes available, and
`handle_packet` passes DNS execution the cursor over 40 bytes at offset 28. -/
theorem capture_workaround_ipv4_witness :
    handle_ipv4 1000
        ([0x45, 0, 0, 40, 0, 0, 0, 0, 64, 17, 0, 0, 10, 0, 0, 1, 10, 0, 0, 2,
          0x13, 0x88, 0x1f, 0x75, 0, 20, 0, 0] ++ List.replicate 18 0)
        ⟨[0x45, 0, 0, 40, 0, 0, 0, 0, 64, 17, 0, 0, 10, 0, 0, 1, 10, 0, 0, 2,
          0x13, 0x88, 0x1f, 0x75, 0, 20, 0, 0] ++ List.replicate 18 0, 46, 0⟩
      = L3Step.proceed
          ⟨[0x45, 0, 0, 40, 0, 0, 0, 0, 64, 17, 0, 0, 10, 0, 0, 1, 10, 0, 0, 2,
            0x13, 0x88, 0x1f, 0x75, 0, 20, 0, 0] ++ List.replicate 18 0, 40, 20⟩
          [⟨1000, 20⟩] ∧
    (ReadBuffer.mk
        ([0x45, 0, 0, 40, 0, 0, 0, 0, 64, 17, 0, 0, 10, 0, 0, 1, 10, 0, 0, 2,
          0x13, 0x88, 0x1f, 0x75, 0, 20, 0, 0] ++ List.replicate 18 0) 40 20).available = 20 ∧
    handle_packet 8053
        (fun cur iov => (decide (cur.size = 40 ∧ cur.position = 28 ∧ cur.available = 12), iov))
        1000 2000
        ([0x45, 0, 0, 40, 0, 0, 0, 0, 64, 17, 0, 0, 10, 0, 0, 1, 10, 0, 0, 2,
          0x13, 0x88, 0x1f, 0x75, 0, 20, 0, 0] ++ List.replicate 18 0) 46
      = Outcome.send [⟨1000, 20⟩, ⟨2000, 8⟩] := by
  have h := capture_workaround_ipv4 8053
    (fun cur iov => (decide (cur.size = 40 ∧ cur.position = 28 ∧ cur.available = 12), iov))
    1000 2000
    ([0x45, 0, 0, 40, 0, 0, 0, 0, 64, 17, 0, 0, 10, 0, 0, 1, 10, 0, 0, 2,
      0x13, 0x88, 0x1f, 0x75, 0, 20, 0, 0] ++ List.replicate 18 0) 46 5 40
    (by decide) (by decide) (by decide) (by decide)
  obtain ⟨_, hr, _⟩ := h
  obtain ⟨_, hav, h4, hp⟩ := hr rfl (by decide) (by decide)
  refine ⟨?_, hav, ?_⟩
  · rw [h4]
    decide
  · rw [hp]
    decide

/-- Reserved source ports on a version-4 frame that holds its header: for
every behaviour of the DNS execute step, a frame with version nibble 4,
header length `ihl = 4 * n` with `20 ≤ ihl ≤ buflen`, a total-length field
that the capture workaround can re-base on (`ihl ≤ L` when the frame is 46
bytes long and `L < 46`), and source port 0, 7 or 123 in the UDP header at
offset `ihl` of the frame is dropped: no DNS execution, no send, no cursor
read beyond the bytes available. -/
theorem reserved_source_port_dropped (port : Nat)
    (execute : ReadBuffer → List iovec → Bool × List iovec)
    (ip4_out udp_out : Nat) (buffer : List Nat) (buflen n L : Nat)
    (hver : ((ReadBuffer.mk buffer buflen 0).peek 0 >>> 4) &&& 0x0f = 4)
    (hn : (ReadBuffer.mk buffer buflen 0).peek 0 &&& 0x0f = n)
    (hL : (ReadBuffer.mk buffer buflen 0).be16 2 = L)
    (h20 : 20 ≤ 4 * n) (hfit : 4 * n ≤ buflen)
    (hwa : buflen = 46 → L < 46 → 4 * n ≤ L)
    (hsport :
      buffer.getD (4 * n) 0 % 256 * 256 + buffer.getD (4 * n + 1) 0 % 256 = 0 ∨
      buffer.getD (4 * n) 0 % 256 * 256 + buffer.getD (4 * n + 1) 0 % 256 = 7 ∨
      buffer.getD (4 * n) 0 % 256 * 256 + buffer.getD (4 * n + 1) 0 % 256 = 123) :
    handle_packet port execute ip4_out udp_out buffer buflen = Outcome.dropped := by
  have key : ∀ S : Nat,
      ipv4_after_workaround ip4_out buffer ⟨buffer, buflen, 0⟩
        = L3Step.proceed ⟨buffer, S, 4 * n⟩ [⟨ip4_out, 20⟩] →
      handle_packet port execute ip4_out udp_out buffer buflen = Outcome.dropped := by
    intro S hw
    rw [(handle_packet_ipv4_at port execute ip4_out udp_out buffer buflen S (4 * n)
      hver (by omega) hw).2]
    have hs : (ReadBuffer.mk buffer S (4 * n)).be16 0 = 0 ∨
        (ReadBuffer.mk buffer S (4 * n)).be16 0 = 7 ∨
        (ReadBuffer.mk buffer S (4 * n)).be16 0 = 123 := hsport
    rw [if_pos hs]
    simp only [ite_self]
  by_cases hc : buflen = 46 ∧ L < 46
  · exact key L (ipv4_after_workaround_rebased ip4_out buffer buflen n L hn hL h20 hc.1
      (hwa hc.1 hc.2) hc.2)
  · exact key buflen (ipv4_after_workaround_unchanged ip4_out buffer buflen n L hn hL h20 hfit
      (by omega))

/-- Witness of `reserved_source_port_dropped`: a well-formed 40-byte IPv4/UDP
frame from source port 123 to port 8053, with an execute step that would
answer. -/
theorem reserved_source_port_dropped_witness :
    handle_packet 8053 (fun _ iov => (true, iov ++ [⟨7000, 12⟩])) 1000 2000
        ([0x45, 0, 0, 40, 0, 0, 0, 0, 64, 17, 0, 0, 10, 0, 0, 1, 10, 0, 0, 2,
          0, 123, 0x1f, 0x75, 0, 20, 0, 0] ++ List.replicate 12 0) 40 = Outcome.dropped :=
  reserved_source_port_dropped 8053 (fun _ iov => (true, iov ++ [⟨7000, 12⟩])) 1000 2000
    ([0x45, 0, 0, 40, 0, 0, 0, 0, 64, 17, 0, 0, 10, 0, 0, 1, 10, 0, 0, 2,
      0, 123, 0x1f, 0x75, 0, 20, 0, 0] ++ List.replicate 12 0) 40 5 40
    (by decide) (by decide) (by decide) (by decide) (by decide) (by decide) (by decide)

/-- No call of `skip_extension_headers` issues a read of more bytes than the
cursor has available: every read is preceded by its check. -/
theorem skip_never_short_reads (cur : ReadBuffer) (next : Nat) :
    ∀ r a, skip_extension_headers cur next ≠ SkipResult.short_read r a := by
  intro r a
  unfold skip_extension_headers
  by_cases h1 : next = IPPROTO_FRAGMENT
  · rw [if_pos h1]; intro h; cases h
  · rw [if_neg h1]
    by_cases h2 : next ≠ IPPROTO_HOPOPTS ∧ next ≠ IPPROTO_DSTOPTS ∧
        next ≠ IPPROTO_ROUTING ∧ next ≠ IPPROTO_MH
    · rw [if_pos h2]; intro h; cases h
    · rw [if_neg h2]
      by_cases h3 : cur.available < 2
      · rw [if_pos h3]; intro h; cases h
      · rw [if_neg h3]
        have hav : cur.available = cur.size - cur.position := rfl
        have hr1 : cur.read 1 = some { cur with position := cur.position + 1 } := by
          have : ¬ cur.available < 1 := by omega
          simp [ReadBuffer.read, this]
        have hr2 : (ReadBuffer.mk cur.base cur.size (cur.position + 1)).read 1
            = some ⟨cur.base, cur.size, cur.position + 1 + 1⟩ := by
          have : ¬ cur.size - (cur.position + 1) < 1 := by omega
          simp [ReadBuffer.read, ReadBuffer.available, this]
        rw [hr1]
        simp only [hr2]
        split
        · intro h; cases h
        · rename_i h4
          simp only [ReadBuffer.read, if_neg h4]
          intro h; cases h

/-- C15. A truncated extension header aborts with drop: for every cursor
state and every next-header value that is one of Hop-by-Hop, Destination,
Routing or Mobility, if fewer than 2 bytes are available, or if after reading
the 2 fixed bytes fewer than `8 * len_field + 6` bytes are available (the
length field being the second byte at the cursor), `skip_extension_headers`
returns IPPROTO_NONE (59); and in no case, whatever the cursor and the
next-header value, does it request a read of more bytes than the cursor has
available. -/
theorem truncated_extension_header_drops (cur : ReadBuffer) (next : Nat)
    (hnext : next = IPPROTO_HOPOPTS ∨ next = IPPROTO_DSTOPTS ∨
      next = IPPROTO_ROUTING ∨ next = IPPROTO_MH)
    (htrunc : cur.available < 2 ∨
      (2 ≤ cur.available ∧ cur.available - 2 < 8 * cur.peek 1 + 6)) :
    (∃ cur', skip_extension_headers cur next = SkipResult.ret 59 cur') ∧
    (∀ (c : ReadBuffer) (nx r a : Nat),
      skip_extension_headers c nx ≠ SkipResult.short_read r a) := by
  refine ⟨?_, fun c nx r a => skip_never_short_reads c nx r a⟩
  have h1 : ¬ next = IPPROTO_FRAGMENT := by
    rcases hnext with h | h | h | h <;> rw [h] <;> decide
  have h2 : ¬ (next ≠ IPPROTO_HOPOPTS ∧ next ≠ IPPROTO_DSTOPTS ∧
      next ≠ IPPROTO_ROUTING ∧ next ≠ IPPROTO_MH) := by
    rintro ⟨a, b, c, d⟩
    rcases hnext with h | h | h | h
    · exact a h
    · exact b h
    · exact c h
    · exact d h
  unfold skip_extension_headers
  rw [if_neg h1, if_neg h2]
  rcases htrunc with h3 | ⟨h3, h4⟩
  · rw [if_pos h3]
    exact ⟨cur, rfl⟩
  · rw [if_neg (by omega)]
    have hav : cur.available = cur.size - cur.position := rfl
    have hr1 : cur.read 1 = some { cur with position := cur.position + 1 } := by
      have : ¬ cur.available < 1 := by omega
      simp [ReadBuffer.read, this]
    have hr2 : (ReadBuffer.mk cur.base cur.size (cur.position + 1)).read 1
        = some ⟨cur.base, cur.size, cur.position + 1 + 1⟩ := by
      have : ¬ cur.size - (cur.position + 1) < 1 := by omega
      simp [ReadBuffer.read, ReadBuffer.available, this]
    rw [hr1]
    simp only [hr2]
    have hpk : (ReadBuffer.mk cur.base cur.size (cur.position + 1)).peek 0 = cur.peek 1 := by
      simp [ReadBuffer.peek]
    have h5 : (ReadBuffer.mk cur.base cur.size (cur.position + 1 + 1)).available
        < (ReadBuffer.mk cur.base cur.size (cur.position + 1)).peek 0 * 8 + 6 := by
      rw [hpk]
      simp only [ReadBuffer.available]
      omega
    rw [if_pos h5]
    exact ⟨_, rfl⟩

/-- Witness of `truncated_extension_header_drops`: a Hop-by-Hop header whose
length field announces 8 * 1 + 6 = 14 more bytes with only 6 left. -/
theorem truncated_extension_header_drops_witness :
    (∃ cur', skip_extension_headers ⟨[17, 1, 0, 0, 0, 0, 0, 0], 8, 0⟩ IPPROTO_HOPOPTS
      = SkipResult.ret 59 cur') ∧
    skip_extension_headers ⟨[17, 1, 0, 0, 0, 0, 0, 0], 8, 0⟩ IPPROTO_HOPOPTS
      = SkipResult.ret 59 ⟨[17, 1, 0, 0, 0, 0, 0, 0], 8, 2⟩ :=
  ⟨(truncated_extension_header_drops ⟨[17, 1, 0, 0, 0, 0, 0, 0], 8, 0⟩ IPPROTO_HOPOPTS
      (Or.inl rfl) (Or.inr (by decide))).1, by decide⟩

/-! ## The constructed layer -/

/-- The member `addr` after construction, byte by byte. -/
theorem Netserver_IPv6_new_eq (hw : ether_addr) :
    Netserver_IPv6_new hw
      = [⟨![0xfe, 0x80, 0, 0, 0, 0, 0, 0,
            hw.ether_addr_octet 0 ^^^ 0x02, hw.ether_addr_octet 1, hw.ether_addr_octet 2,
            0xff, 0xfe,
            hw.ether_addr_octet 3, hw.ether_addr_octet 4, hw.ether_addr_octet 5]⟩] := by
  unfold Netserver_IPv6_new
  simp only [List.cons.injEq, in6_addr.mk.injEq, and_true]
  funext i
  fin_cases i <;> rfl

/-- The constructed layer holds one address, and its leading byte is 0xfe. -/
theorem new_layer_singleton (hw : ether_addr) :
    ∃ ll : in6_addr, Netserver_IPv6_new hw = [ll] ∧ ll.s6_addr 0 = 0xfe :=
  ⟨_, Netserver_IPv6_new_eq hw, rfl⟩

/-- C12. Link-local derivation is the modified-EUI-64 transform: for every
6-byte hardware address `hw`, the constructor holds exactly one address, whose
bytes are 0xfe, 0x80, six zero bytes, `hw[0] XOR 0x02`, `hw[1]`, `hw[2]`, 0xff,
0xfe, `hw[3]`, `hw[4]`, `hw[5]`; and `hw = 02:00:00:00:00:01` yields
fe80::0000:00ff:fe00:0001. -/
theorem link_local_is_modified_eui64 (hw : ether_addr) :
    Netserver_IPv6_new hw
      = [⟨![0xfe, 0x80, 0, 0, 0, 0, 0, 0,
            hw.ether_addr_octet 0 ^^^ 0x02, hw.ether_addr_octet 1, hw.ether_addr_octet 2,
            0xff, 0xfe,
            hw.ether_addr_octet 3, hw.ether_addr_octet 4, hw.ether_addr_octet 5]⟩] ∧
    Netserver_IPv6_new ⟨![0x02, 0x00, 0x00, 0x00, 0x00, 0x01]⟩
      = [⟨![0xfe, 0x80, 0x00, 0x00, 0x00, 0x00, 0x00, 0x00,
            0x00, 0x00, 0x00, 0xff, 0xfe, 0x00, 0x00, 0x01]⟩] := by
  refine ⟨Netserver_IPv6_new_eq hw, ?_⟩
  rw [Netserver_IPv6_new_eq]
  simp only [List.cons.injEq, in6_addr.mk.injEq, and_true]
  funext i
  fin_cases i <;> rfl

/-- C11. For every 6-byte hardware address `hw`, the layer constructed from
`hw` satisfies: `match` returns true for the link-local address it holds;
`match` returns true for the solicited-node multicast address
ff02::1:ffXX:XXXX built from that address's low 24 bits; and `match` returns
false for every address whose low 24 bits (last three bytes) differ from those
of the link-local address. -/
theorem constructed_layer_matches (hw : ether_addr) (ll a : in6_addr)
    (hll : ll ∈ Netserver_IPv6_new hw)
    (hdiff : ∃ i : Fin 16, 13 ≤ i.val ∧ a.s6_addr i ≠ ll.s6_addr i) :
    Netserver_IPv6_match (Netserver_IPv6_new hw) ll = true ∧
    Netserver_IPv6_match (Netserver_IPv6_new hw) (solicited_node_of ll) = true ∧
    Netserver_IPv6_match (Netserver_IPv6_new hw) a = false := by
  obtain ⟨x, hx, _⟩ := new_layer_singleton hw
  have hllx : ll = x := by
    rw [hx] at hll
    exact List.mem_singleton.mp hll
  subst hllx
  refine ⟨?_, ?_, ?_⟩
  · unfold Netserver_IPv6_match
    rw [Bool.or_eq_true]
    exact Or.inl ((match_exact_iff _ _).mpr hll)
  · unfold Netserver_IPv6_match
    rw [Bool.or_eq_true]
    refine Or.inr ((match_solicited_iff _ _).mpr ⟨?_, ll, hll, ?_⟩)
    · intro i hi
      simp [solicited_node_of, hi]
    · intro i hi
      have : ¬ i.val < 13 := by omega
      simp [solicited_node_of, this]
  · obtain ⟨i, hi, hne⟩ := hdiff
    cases hm : Netserver_IPv6_match (Netserver_IPv6_new hw) a with
    | false => rfl
    | true =>
      exfalso
      unfold Netserver_IPv6_match at hm
      rw [Bool.or_eq_true] at hm
      rcases hm with hm | hm
      · have hmem := (match_exact_iff _ _).mp hm
        rw [hx] at hmem
        have : a = ll := List.mem_singleton.mp hmem
        exact hne (by rw [this])
      · obtain ⟨_, h, hh, hlow⟩ := (match_solicited_iff _ _).mp hm
        rw [hx] at hh
        have : h = ll := List.mem_singleton.mp hh
        subst this
        exact hne (hlow i hi)

/-- Witness of `constructed_layer_matches`: hardware address
02:00:00:00:00:01, and the all-zero address, whose last byte differs from that
of fe80::ff:fe00:1. -/
theorem constructed_layer_matches_witness :
    Netserver_IPv6_match (Netserver_IPv6_new ⟨![0x02, 0, 0, 0, 0, 0x01]⟩)
        ⟨![0xfe, 0x80, 0, 0, 0, 0, 0, 0, 0, 0, 0, 0xff, 0xfe, 0, 0, 0x01]⟩ = true ∧
    Netserver_IPv6_match (Netserver_IPv6_new ⟨![0x02, 0, 0, 0, 0, 0x01]⟩)
        (solicited_node_of
          ⟨![0xfe, 0x80, 0, 0, 0, 0, 0, 0, 0, 0, 0, 0xff, 0xfe, 0, 0, 0x01]⟩) = true ∧
    Netserver_IPv6_match (Netserver_IPv6_new ⟨![0x02, 0, 0, 0, 0, 0x01]⟩)
        ⟨fun _ => 0⟩ = false :=
  constructed_layer_matches ⟨![0x02, 0, 0, 0, 0, 0x01]⟩
    ⟨![0xfe, 0x80, 0, 0, 0, 0, 0, 0, 0, 0, 0, 0xff, 0xfe, 0, 0, 0x01]⟩ ⟨fun _ => 0⟩
    (by
      rw [Netserver_IPv6_new_eq]
      simp only [List.mem_singleton, in6_addr.mk.injEq]
      funext i
      fin_cases i <;> rfl)
    ⟨15, by decide, by decide⟩

/-- C20. The IPv6 response is always sourced from one of the server's own
addresses: for every layer built by the constructor and every inbound packet
for which `Netserver_IPv6::recv` builds a response header (it passed the
destination match and the protocol checks, and `dispatch` is called), the
response header's source address is a member of the held address list, its
leading byte is not 0xff, and its destination address equals the request's
source address (the sixteen bytes at offset 8 of the request header). -/
theorem response_source_is_own_address (hw : ether_addr) (registered : Nat → Bool)
    (cur : ReadBuffer) (next : Nat) (ip6_out : ip6_hdr) (cur' : ReadBuffer)
    (h : Netserver_IPv6_recv (Netserver_IPv6_new hw) registered cur
      = Recv6.dispatch next ip6_out cur') :
    ip6_out.ip6_src ∈ Netserver_IPv6_new hw ∧
    ip6_out.ip6_src.s6_addr 0 ≠ 0xff ∧
    ip6_out.ip6_dst = cur.addr_at 8 := by
  obtain ⟨ll, hx, hfe⟩ := new_layer_singleton hw
  have hown : ∀ a ∈ Netserver_IPv6_new hw, a.s6_addr 0 ≠ 0xff := by
    intro a ha
    rw [hx] at ha
    rw [List.mem_singleton.mp ha, hfe]
    decide
  unfold Netserver_IPv6_recv at h
  simp only at h
  split at h
  · cases h
  · split at h
    · cases h
    · split at h
      · cases h
      · split at h
        · cases h
        · split at h
          · cases h
          · rename_i hmatch
            split at h
            · cases h
            · split at h
              · cases h
              · split at h
                · cases h
                · injection h with h1 h2 h3
                  subst h2
                  simp only
                  have hm : Netserver_IPv6_match (Netserver_IPv6_new hw) (cur.addr_at 24)
                      = true := by
                    simpa using hmatch
                  have hsrc : (if (cur.addr_at 24).s6_addr 0 = 0xff
                      then (Netserver_IPv6_new hw).headD ⟨fun _ => 0⟩
                      else cur.addr_at 24) ∈ Netserver_IPv6_new hw := by
                    by_cases hff : (cur.addr_at 24).s6_addr 0 = 0xff
                    · rw [if_pos hff, hx]
                      simp
                    · rw [if_neg hff]
                      unfold Netserver_IPv6_match at hm
                      rw [Bool.or_eq_true] at hm
                      rcases hm with hm | hm
                      · exact (match_exact_iff _ _).mp hm
                      · exfalso
                        have hp := ((match_solicited_iff _ _).mp hm).1 0 (by decide)
                        exact hff hp
                  exact ⟨hsrc, hown _ hsrc, trivial⟩

/-- Witness of `response_source_is_own_address`: a 48-byte UDP packet
addressed to the link-local address of the layer built from
02:00:00:00:00:01, with UDP registered. -/
theorem response_source_is_own_address_witness :
    ∃ (ip6_out : ip6_hdr) (cur' : ReadBuffer),
      Netserver_IPv6_recv (Netserver_IPv6_new ⟨![0x02, 0, 0, 0, 0, 0x01]⟩)
          (fun p => decide (p = 17))
          ⟨[0x60, 0, 0, 0, 0, 8, 17, 64,
            0xfe, 0x80, 0, 0, 0, 0, 0, 0, 0, 0, 0, 0xff, 0xfe, 0, 0, 0x09,
            0xfe, 0x80, 0, 0, 0, 0, 0, 0, 0, 0, 0, 0xff, 0xfe, 0, 0, 0x01,
            0x30, 0x39, 0x1f, 0x75, 0, 8, 0, 0], 48, 0⟩
        = Recv6.dispatch 17 ip6_out cur' ∧
      ip6_out.ip6_src ∈ Netserver_IPv6_new ⟨![0x02, 0, 0, 0, 0, 0x01]⟩ ∧
      ip6_out.ip6_src.s6_addr 0 ≠ 0xff ∧
      ip6_out.ip6_dst.s6_addr 15 = 0x09 := by
  have e : ∃ (o : ip6_hdr) (c : ReadBuffer),
      Netserver_IPv6_recv (Netserver_IPv6_new ⟨![0x02, 0, 0, 0, 0, 0x01]⟩)
          (fun p => decide (p = 17))
          ⟨[0x60, 0, 0, 0, 0, 8, 17, 64,
            0xfe, 0x80, 0, 0, 0, 0, 0, 0, 0, 0, 0, 0xff, 0xfe, 0, 0, 0x09,
            0xfe, 0x80, 0, 0, 0, 0, 0, 0, 0, 0, 0, 0xff, 0xfe, 0, 0, 0x01,
            0x30, 0x39, 0x1f, 0x75, 0, 8, 0, 0], 48, 0⟩
        = Recv6.dispatch 17 o c := ⟨_, _, rfl⟩
  obtain ⟨o, c, e⟩ := e
  have h := response_source_is_own_address _ _ _ 17 o c e
  exact ⟨o, c, e, h.1, h.2.1, by rw [h.2.2]; rfl⟩

/-! ## The offset/flags fields -/

theorem land_fff8 (x : Nat) (hx : x < 2 ^ 16) : x &&& 0xfff8 = 8 * (x / 8) := by
  have h : x &&& 0xfff8 = (x >>> 3) <<< 3 := by
    apply Nat.eq_of_testBit_eq
    intro i
    rw [Nat.testBit_and, Nat.testBit_shiftLeft, Nat.testBit_shiftRight]
    by_cases h3 : i < 3
    · have : Nat.testBit 0xfff8 i = false := by interval_cases i <;> rfl
      simp [this, h3]
    · by_cases h16 : i < 16
      · have : Nat.testBit 0xfff8 i = true := by interval_cases i <;> rfl
        have e : 3 + (i - 3) = i := by omega
        simp [this, e, Nat.not_lt.mp h3]
      · have hx2 : x.testBit i = false := by
          apply Nat.testBit_lt_two_pow
          calc x < 2 ^ 16 := hx
            _ ≤ 2 ^ i := Nat.pow_le_pow_right (by norm_num) (by omega)
        have e : 3 + (i - 3) = i := by omega
        simp [hx2, e]
  rw [h, Nat.shiftLeft_eq, Nat.shiftRight_eq_div_pow]
  omega

theorem land_two_pow13 (q : Nat) (hq : q < 2 ^ 13) : 2 ^ 13 &&& q = 0 := by
  apply Nat.eq_of_testBit_eq
  intro i
  rw [Nat.testBit_and, Nat.testBit_two_pow, Nat.zero_testBit]
  by_cases h : 13 = i
  · subst h
    simp [Nat.testBit_lt_two_pow hq]
  · simp [h]

/-- The IPv4 field `(mf << 13) | (offset >> 3)` of a 16-bit offset that is a
multiple of 8: the low 13 bits times 8 give the offset back, bit 13 gives the
flag back, and the two operands of the `|` share no bit. -/
theorem ip_off_decodes (f : Fragment) (ho : f.offset < 2 ^ 16) (h8 : f.offset % 8 = 0) :
    (ip_off f &&& 0x1fff) * 8 = f.offset ∧
    (ip_off f >>> 13) &&& 1 = (if f.mf then 1 else 0) ∧
    ((if f.mf then 1 else 0) <<< 13) &&& (f.offset >>> 3) = 0 := by
  have hq : f.offset / 2 ^ 3 < 2 ^ 13 := by omega
  have hmask : (0x1fff : Nat) = 2 ^ 13 - 1 := by norm_num
  unfold ip_off
  rw [Nat.shiftRight_eq_div_pow f.offset 3]
  cases f.mf with
  | false =>
    have e : (((if false = true then 1 else 0) <<< 13) ||| f.offset / 2 ^ 3) % 2 ^ 16
        = f.offset / 2 ^ 3 := by
      simp only [Bool.false_eq_true, if_false, Nat.zero_shiftLeft, Nat.zero_or]
      omega
    rw [e]
    refine ⟨?_, ?_, ?_⟩
    · rw [hmask, Nat.and_pow_two_sub_one_eq_mod]
      omega
    · rw [Nat.shiftRight_eq_div_pow, Nat.and_one_is_mod]
      simp only [Bool.false_eq_true, if_false]
      omega
    · simp
  | true =>
    have e0 : ((if true = true then 1 else 0) <<< 13 : Nat) = 2 ^ 13 * 1 := by
      simp [Nat.shiftLeft_eq]
    have e : (((if true = true then 1 else 0) <<< 13) ||| f.offset / 2 ^ 3) % 2 ^ 16
        = 2 ^ 13 + f.offset / 2 ^ 3 := by
      rw [e0, ← Nat.mul_add_lt_is_or hq 1]
      omega
    rw [e]
    refine ⟨?_, ?_, ?_⟩
    · rw [hmask, Nat.and_pow_two_sub_one_eq_mod]
      omega
    · rw [Nat.shiftRight_eq_div_pow, Nat.and_one_is_mod]
      simp only [if_true]
      omega
    · rw [e0, Nat.mul_one]
      exact land_two_pow13 _ hq

/-- The IPv6 field `(offset & 0xfff8) | mf` of a 16-bit offset that is a
multiple of 8: masking with 0xfff8 gives the offset back and bit 0 gives the
flag back. -/
theorem ip6f_offlg_decodes (f : Fragment) (ho : f.offset < 2 ^ 16) (h8 : f.offset % 8 = 0) :
    ip6f_offlg f &&& 0xfff8 = f.offset ∧
    ip6f_offlg f &&& 1 = (if f.mf then 1 else 0) := by
  have h1 : f.offset &&& 0xfff8 = f.offset := by
    rw [land_fff8 _ ho]; omega
  have hm : (if f.mf then 1 else 0 : Nat) < 2 ^ 3 := by
    cases f.mf <;> simp
  have h2 : f.offset ||| (if f.mf then 1 else 0)
      = f.offset + (if f.mf then 1 else 0) := by
    have := Nat.mul_add_lt_is_or hm (f.offset / 8)
    have e : 2 ^ 3 * (f.offset / 8) = f.offset := by omega
    rw [e] at this
    exact this.symm
  have hm1 : (if f.mf then 1 else 0 : Nat) ≤ 1 := by
    cases f.mf <;> simp
  have h3 : (f.offset + (if f.mf then 1 else 0)) % 2 ^ 16
      = f.offset + (if f.mf then 1 else 0) := Nat.mod_eq_of_lt (by omega)
  unfold ip6f_offlg
  rw [h1, h2, h3]
  refine ⟨?_, ?_⟩
  · rw [land_fff8 _ (by omega)]
    omega
  · rw [Nat.and_one_is_mod]
    omega

/-- Every call's `offset` and `chunk` fit the `uint16_t` parameters. -/
theorem frag_loop_u16 (M : Nat) :
    ∀ (n : Nat) (s r : List iovec) (c o : Nat),
      ∀ f ∈ (frag_loop M n s r c o).1, f.offset < 2 ^ 16 ∧ f.chunk < 2 ^ 16 := by
  intro n
  induction n with
  | zero => intro s r c o f hf; simp [frag_loop_zero] at hf
  | succ n ih =>
    intro s r c o f hf
    cases r with
    | nil =>
      simp only [frag_loop_nil, List.mem_singleton] at hf
      subst hf
      exact ⟨Nat.mod_lt _ (by norm_num), Nat.mod_lt _ (by norm_num)⟩
    | cons v r =>
      by_cases h : M < (c + v.iov_len) % 2 ^ 32
      · rw [frag_loop_cut M n s r v c o h] at hf
        rcases List.mem_cons.mp hf with hf | hf
        · subst hf
          exact ⟨Nat.mod_lt _ (by norm_num), Nat.mod_lt _ (by norm_num)⟩
        · exact ih _ _ _ _ f hf
      · rw [frag_loop_keep M n s r v c o h] at hf
        exact ih _ _ _ _ f hf

/-- While offset, running chunk and what is left to iterate over stay within
16 bits together, the declared offsets are the running sums of the declared
lengths, whether or not a cut wraps and however far the loop has run. -/
theorem frag_loop_offsets (M : Nat) :
    ∀ (n : Nat) (s r : List iovec) (c o : Nat),
      o + c + total_len r < 2 ^ 16 →
      offsets_tile o (frag_loop M n s r c o).1 = true := by
  intro n
  induction n with
  | zero => intro s r c o _; rw [frag_loop_zero]; rfl
  | succ n ih =>
    intro s r c o hT
    cases r with
    | nil =>
      rw [frag_loop_nil]
      have ho : o % 2 ^ 16 = o := Nat.mod_eq_of_lt (by omega)
      simp only [offsets_tile, ho, decide_True, Bool.and_true]
    | cons v r =>
      simp only [total_len] at hT
      have hmod : (c + v.iov_len) % 2 ^ 32 = c + v.iov_len := Nat.mod_eq_of_lt (by omega)
      by_cases h : M < (c + v.iov_len) % 2 ^ 32
      · rw [frag_loop_cut M n s r v c o h]
        have ho : o % 2 ^ 16 = o := Nat.mod_eq_of_lt (by omega)
        have hM2 : (M - M % 8) % 2 ^ 16 = M - M % 8 := Nat.mod_eq_of_lt (by omega)
        have ho2 : (o + (M - M % 8)) % 2 ^ 32 = o + (M - M % 8) :=
          Nat.mod_eq_of_lt (by omega)
        simp only [offsets_tile, ho, hM2, ho2, decide_True, Bool.true_and]
        refine ih _ _ _ _ ?_
        simp only [total_len]
        rw [left_len_eq M c v (by omega)]
        omega
      · rw [frag_loop_keep M n s r v c o h, hmod]
        exact ih _ _ _ _ (by omega)

/-- Offsets laid end to end from `o`: the `i`-th one is `o` plus the sum of the
declared lengths before it. -/
theorem offsets_tile_sum :
    ∀ (fs : List Fragment) (o : Nat), offsets_tile o fs = true →
      ∀ (i : Nat) (h : i < fs.length),
        fs[i].offset = o + ((fs.take i).map Fragment.chunk).sum := by
  intro fs
  induction fs with
  | nil => intro o _ i h; simp at h
  | cons g fs ih =>
    intro o ht i h
    simp only [offsets_tile, Bool.and_eq_true, decide_eq_true_eq] at ht
    cases i with
    | zero => simp [ht.1]
    | succ i =>
      have := ih (o + g.chunk) ht.2 i (by simpa using h)
      simp only [List.getElem_cons_succ, List.take_succ_cons, List.map_cons, List.sum_cons]
      rw [this]
      omega

/-- The properties of C16 for one run of the loop from its initial state. -/
theorem frag_loop_fields (M n : Nat) (segs : List iovec) (hT : total_len segs ≤ 65535) :
    (∀ (i : Nat) (h : i < (frag_loop M n [] segs 0 0).1.length),
      ((frag_loop M n [] segs 0 0).1)[i].offset
        = ((((frag_loop M n [] segs 0 0).1).take i).map Fragment.chunk).sum) ∧
    (∀ f ∈ (frag_loop M n [] segs 0 0).1,
      ((ip_off f &&& 0x1fff) * 8 = f.offset ∧
        (ip_off f >>> 13) &&& 1 = (if f.mf then 1 else 0) ∧
        ((if f.mf then 1 else 0) <<< 13) &&& (f.offset >>> 3) = 0) ∧
      (ip6f_offlg f &&& 0xfff8 = f.offset ∧
        ip6f_offlg f &&& 1 = (if f.mf then 1 else 0))) := by
  constructor
  · intro i h
    have := offsets_tile_sum _ 0 (frag_loop_offsets M n [] segs 0 0 (by omega)) i h
    rw [this, Nat.zero_add]
  · intro f hf
    have hu := (frag_loop_u16 M n [] segs 0 0 f hf).1
    have ha := (frag_loop_aligned M n [] segs 0 0 rfl f hf).1
    exact ⟨ip_off_decodes f hu ha, ip6f_offlg_decodes f hu ha⟩

/-- C16. The offset/flags field of every emitted fragment encodes its position
losslessly: for every payload segment list of total length at most 65535,
whatever the MTU and however far the loop has run, the `i`-th call's byte
offset equals the sum of the declared payload lengths of calls `0..i-1`; the
16-bit IPv4 field `(mf << 13) | (offset >> 3)` decodes back to exactly that
offset (low 13 bits times 8) and that flag (bit 13), the two operands sharing
no bit; and the IPv6 field `(offset & 0xfff8) | mf` decodes back to exactly
that offset and that flag (bit 0). -/
theorem offset_flags_field_lossless (mtu fuel : Nat) (hdr : iovec) (segs : List iovec)
    (fuel6 : Nat) (hdr6 : iovec) (segs6 : List iovec) (iovlen : Nat)
    (hT : total_len segs ≤ 65535) (hT6 : total_len segs6 ≤ 65535) :
    ((∀ (i : Nat) (h : i < (Server_send mtu fuel (hdr :: segs)).1.length),
        ((Server_send mtu fuel (hdr :: segs)).1)[i].offset
          = ((((Server_send mtu fuel (hdr :: segs)).1).take i).map Fragment.chunk).sum) ∧
      (∀ f ∈ (Server_send mtu fuel (hdr :: segs)).1,
        (ip_off f &&& 0x1fff) * 8 = f.offset ∧
        (ip_off f >>> 13) &&& 1 = (if f.mf then 1 else 0) ∧
        ((if f.mf then 1 else 0) <<< 13) &&& (f.offset >>> 3) = 0)) ∧
    (∀ calls returned,
      Netserver_IPv6_send fuel6 (hdr6 :: segs6) iovlen = Sent6.fragmented calls returned →
      (∀ (i : Nat) (h : i < calls.length),
        calls[i].offset = ((calls.take i).map Fragment.chunk).sum) ∧
      (∀ f ∈ calls,
        ip6f_offlg f &&& 0xfff8 = f.offset ∧
        ip6f_offlg f &&& 1 = (if f.mf then 1 else 0))) := by
  constructor
  · have h := frag_loop_fields (max_frag_ipv4 mtu) fuel segs hT
    exact ⟨h.1, fun f hf => (h.2 f hf).1⟩
  · intro calls returned h
    have hh := frag_loop_fields 1452 fuel6 segs6 hT6
    unfold Netserver_IPv6_send at h
    simp only at h
    split at h
    · cases h
    · injection h with h1 _
      subst h1
      exact ⟨hh.1, fun f hf => (hh.2 f hf).2⟩

/-- Witness of `offset_flags_field_lossless`: 3000 payload bytes on both
paths. -/
theorem offset_flags_field_lossless_witness :
    (total_len [⟨100, 3000⟩] ≤ 65535) ∧
    ((∀ (i : Nat) (h : i < (Server_send 1500 10 [⟨0, 20⟩, ⟨100, 3000⟩]).1.length),
        ((Server_send 1500 10 [⟨0, 20⟩, ⟨100, 3000⟩]).1)[i].offset
          = ((((Server_send 1500 10 [⟨0, 20⟩, ⟨100, 3000⟩]).1).take i).map
              Fragment.chunk).sum) ∧
      (∀ f ∈ (Server_send 1500 10 [⟨0, 20⟩, ⟨100, 3000⟩]).1,
        (ip_off f &&& 0x1fff) * 8 = f.offset ∧
        (ip_off f >>> 13) &&& 1 = (if f.mf then 1 else 0) ∧
        ((if f.mf then 1 else 0) <<< 13) &&& (f.offset >>> 3) = 0)) ∧
    (Server_send 1500 10 [⟨0, 20⟩, ⟨100, 3000⟩]).1.map (fun f => (f.offset, ip_off f))
      = [(0, 8192), (1480, 8377), (2960, 370)] ∧
    Netserver_IPv6_send 10 [⟨0, 40⟩, ⟨100, 3000⟩] 2
      = Sent6.fragmented
          [⟨0, 1448, [⟨100, 1448⟩], true⟩, ⟨1448, 1448, [⟨1548, 1448⟩], true⟩,
           ⟨2896, 104, [⟨2996, 104⟩], false⟩] true :=
  ⟨by decide,
    (offset_flags_field_lossless 1500 10 ⟨0, 20⟩ [⟨100, 3000⟩] 10 ⟨0, 40⟩ [⟨100, 3000⟩] 2
      (by decide) (by decide)).1,
    by decide, by decide⟩

/-! ## The aligned IPv4 fragmenter -/

/-- With an 8-aligned `max_frag` below `2^16` and no wrap of the `unsigned`
sum, the loop returns, every call carries what it declares, calls flagged
more-fragments carry exactly `max_frag` bytes, the final call carries at most
`max_frag` bytes and at least one when anything was left, and the payloads in
emission order are the bytes of `sent ++ rest`. -/
theorem frag_loop_exact (mem : Nat → Nat) (M : Nat) (hM : 8 ≤ M) (hal : M % 8 = 0)
    (h16 : M < 2 ^ 16) :
    ∀ (n : Nat) (s r : List iovec) (c o : Nat),
      c = total_len s →
      c ≤ M →
      c + total_len r < 2 ^ 32 →
      (∀ v ∈ r, v.iov_base + v.iov_len ≤ 2 ^ 64) →
      total_len r + c + r.length + 1 ≤ n →
      (frag_loop M n s r c o).2 = true ∧
      (∀ f ∈ (frag_loop M n s r c o).1, total_len f.payload = f.chunk) ∧
      (∀ f ∈ (frag_loop M n s r c o).1, f.mf = true → total_len f.payload = M) ∧
      (∀ f ∈ (frag_loop M n s r c o).1, f.mf = false →
        total_len f.payload ≤ M ∧ (0 < c + total_len r → 1 ≤ total_len f.payload)) ∧
      reassemble mem (frag_loop M n s r c o).1 = iov_bytes mem (s ++ r) := by
  have hMM : M - M % 8 = M := by omega
  intro n
  induction n with
  | zero => intro s r c o _ _ _ _ hn; omega
  | succ n ih =>
    intro s r c o hc hcM hT hmem hn
    cases r with
    | nil =>
      have hc2 : c % 2 ^ 16 = c := Nat.mod_eq_of_lt (by omega)
      rw [frag_loop_nil, hc2]
      refine ⟨rfl, ?_, ?_, ?_, ?_⟩
      · intro f hf
        simp only [List.mem_singleton] at hf
        subst hf
        exact hc.symm
      · intro f hf hmf
        simp only [List.mem_singleton] at hf
        subst hf
        cases hmf
      · intro f hf _
        simp only [List.mem_singleton] at hf
        subst hf
        simp only [total_len, Nat.add_zero]
        exact ⟨by omega, fun h => by omega⟩
      · simp [reassemble]
    | cons v r =>
      simp only [total_len, List.length_cons] at hT hn
      have hmod : (c + v.iov_len) % 2 ^ 32 = c + v.iov_len := Nat.mod_eq_of_lt (by omega)
      have hv64 : v.iov_base + v.iov_len ≤ 2 ^ 64 := hmem v (List.mem_cons_self _ _)
      have hmem2 : ∀ w ∈ r, w.iov_base + w.iov_len ≤ 2 ^ 64 :=
        fun w hw => hmem w (List.mem_cons_of_mem _ hw)
      by_cases h : M < (c + v.iov_len) % 2 ^ 32
      · have h' : M < c + v.iov_len := by rw [hmod] at h; exact h
        have hcl : cut_len M c v = M - c := by
          unfold cut_len
          rw [hmod]
          omega
        have hleft : (v.iov_len + 2 ^ 64 - cut_len M c v) % 2 ^ 64
            = c + v.iov_len - M := by
          rw [left_len_eq M c v (by omega), hmod, hMM]
        have hsplit : v.iov_len = (M - c) + (c + v.iov_len - M) := by omega
        have hbase : (v.iov_base + (M - c)) % 2 ^ 64 = v.iov_base + (M - c) :=
          Nat.mod_eq_of_lt (by omega)
        rw [frag_loop_cut M n s r v c o h]
        rw [hleft, hcl, hbase, hMM]
        have hM2 : M % 2 ^ 16 = M := Nat.mod_eq_of_lt h16
        rw [hM2]
        obtain ⟨i1, i2, i3, i4, i5⟩ := ih []
          (⟨v.iov_base + (M - c), c + v.iov_len - M⟩ :: r) 0
          ((o + M) % 2 ^ 32) rfl (Nat.zero_le _)
          (by simp only [total_len]; omega)
          (by
            intro w hw
            rcases List.mem_cons.mp hw with hw | hw
            · subst hw
              show v.iov_base + (M - c) + (c + v.iov_len - M) ≤ 2 ^ 64
              omega
            · exact hmem2 w hw)
          (by simp only [total_len, List.length_cons]; omega)
        refine ⟨i1, ?_, ?_, ?_, ?_⟩
        · intro f hf
          rcases List.mem_cons.mp hf with hf | hf
          · subst hf
            simp only [total_len_append, total_len]
            omega
          · exact i2 f hf
        · intro f hf hmf
          rcases List.mem_cons.mp hf with hf | hf
          · subst hf
            simp only [total_len_append, total_len]
            omega
          · exact i3 f hf hmf
        · intro f hf hmf
          rcases List.mem_cons.mp hf with hf | hf
          · subst hf
            cases hmf
          · have := i4 f hf hmf
            refine ⟨this.1, fun _ => this.2 ?_⟩
            simp only [total_len]
            omega
        · simp only [reassemble]
          have hR : iov_bytes mem (s ++ v :: r)
              = iov_bytes mem s ++ (seg_bytes mem v ++ iov_bytes mem r) := by
            rw [iov_bytes_append]; rfl
          have hv : seg_bytes mem v
              = seg_bytes mem ⟨v.iov_base, (M - c) + (c + v.iov_len - M)⟩ := by
            rw [← hsplit]
          rw [i5, hR, hv, seg_bytes_split, iov_bytes_append]
          simp only [iov_bytes, List.nil_append, List.append_nil, List.append_assoc]
      · rw [frag_loop_keep M n s r v c o h, hmod]
        have := ih (s ++ [v]) r (c + v.iov_len) o
          (by simp only [total_len_append, total_len]; omega)
          (by omega) (by omega) hmem2 (by omega)
        obtain ⟨j1, j2, j3, j4, j5⟩ := this
        refine ⟨j1, j2, j3, ?_, ?_⟩
        · intro f hf hmf
          have := j4 f hf hmf
          refine ⟨this.1, fun h0 => this.2 ?_⟩
          simp only [total_len] at h0
          omega
        · simpa only [List.append_assoc, List.singleton_append] using j5

/-- C17. Evaluation of both fragmentation loops at inputs where the cut point
falls before the start of the segment being cut.  IPv6 (`max_frag` 1452),
payload segments of 1450 and 10 bytes: at the cut the excess is 8 + 4 = 12,
more than the 10 bytes of the current segment, `vec.iov_len -= excess` wraps
to `2^64 - 2`, and the left-over iovec starts at 1998, two bytes before the
segment at 2000.  IPv4 with MTU 576 (`max_frag` 556), payload segments of 554
and 10 bytes: the same, with a fragment declaring 552 bytes. -/
theorem cut_excess_exceeds_segment :
    Netserver_IPv6_send 10 [⟨0, 40⟩, ⟨100, 1450⟩, ⟨2000, 10⟩] 3
      = Sent6.fragmented
          [⟨0, 1448, [⟨100, 1450⟩, ⟨2000, 2 ^ 64 - 2⟩], true⟩,
           ⟨1448, 12, [⟨1998, 12⟩], false⟩] true ∧
    cuts_fit 1452 10 [⟨100, 1450⟩, ⟨2000, 10⟩] 0 = false ∧
    Server_send 576 10 [⟨0, 20⟩, ⟨100, 554⟩, ⟨2000, 10⟩]
      = ([⟨0, 552, [⟨100, 554⟩, ⟨2000, 2 ^ 64 - 2⟩], true⟩,
          ⟨552, 12, [⟨1998, 12⟩], false⟩], true) ∧
    cuts_fit (max_frag_ipv4 576) 10 [⟨100, 554⟩, ⟨2000, 10⟩] 0 = false := by
  decide

/-- The `size_t` value `mtu - 20` when it does not wrap. -/
theorem max_frag_ipv4_eq (mtu : Nat) (h : 20 ≤ mtu) (h2 : mtu < 2 ^ 64) :
    max_frag_ipv4 mtu = mtu - 20 := by
  unfold max_frag_ipv4
  omega

/-- C18, as amended. When the per-fragment capacity is 8-aligned the IPv4
fragmenter is exact: for every MTU with `8 ≤ MTU - 20 < 65536` and `MTU - 20`
divisible by 8, and every list of payload segments of total length below
`2^32`, each a region of the 64-bit address space, `Server::send` returns and
the transmitted segment bytes of its calls, concatenated in emission order,
equal the concatenation of the original payload segments; every non-final
call carries exactly `MTU - 20` bytes, the final call carries at most
`MTU - 20` bytes and at least 1 when the payload is non-empty, and each
call's transmitted byte count equals the `chunk` it declares. -/
theorem aligned_fragmenter_exact (mem : Nat → Nat) (mtu fuel : Nat) (hdr : iovec)
    (segs : List iovec)
    (h8 : 8 ≤ mtu - 20) (hal : (mtu - 20) % 8 = 0) (h16 : mtu - 20 < 2 ^ 16)
    (hT : total_len segs < 2 ^ 32)
    (hmem : ∀ v ∈ segs, v.iov_base + v.iov_len ≤ 2 ^ 64)
    (hfuel : total_len segs + segs.length + 1 ≤ fuel) :
    (Server_send mtu fuel (hdr :: segs)).2 = true ∧
    reassemble mem (Server_send mtu fuel (hdr :: segs)).1 = iov_bytes mem segs ∧
    (∃ init last, (Server_send mtu fuel (hdr :: segs)).1 = init ++ [last] ∧
      (∀ f ∈ init, total_len f.payload = mtu - 20) ∧
      total_len last.payload ≤ mtu - 20 ∧
      (0 < total_len segs → 1 ≤ total_len last.payload)) ∧
    (∀ f ∈ (Server_send mtu fuel (hdr :: segs)).1, total_len f.payload = f.chunk) := by
  have hM : max_frag_ipv4 mtu = mtu - 20 := max_frag_ipv4_eq mtu (by omega) (by omega)
  have key := frag_loop_exact mem (mtu - 20) h8 hal h16 fuel [] segs 0 0 rfl (Nat.zero_le _)
    (by omega) hmem (by omega)
  have hS : Server_send mtu fuel (hdr :: segs) = frag_loop (mtu - 20) fuel [] segs 0 0 := by
    unfold Server_send
    rw [hM]
    rfl
  rw [hS]
  obtain ⟨k1, k2, k3, k4, k5⟩ := key
  rw [List.nil_append] at k5
  refine ⟨k1, k5, ?_, k2⟩
  obtain ⟨init, last, e, hi, hl⟩ := (frag_loop_flags (mtu - 20) fuel [] segs 0 0).2 k1
  refine ⟨init, last, e, ?_, ?_, ?_⟩
  · intro f hf
    exact k3 f (by rw [e]; exact List.mem_append_left _ hf) (hi f hf)
  · exact (k4 last (by rw [e]; simp) hl).1
  · intro hpos
    exact (k4 last (by rw [e]; simp) hl).2 (by omega)

/-- C18, counterexample to the claim as stated (every MTU, every list of
payload segments).  With MTU 1500 and one payload segment of `2^32` bytes the
`unsigned` running chunk wraps to 0: the only call is the final one, it
carries `2^32` bytes, more than MTU - 20, and declares 0.  With MTU 65556
(`MTU - 20 = 65536`, divisible by 8) and one payload segment of 65537 bytes the
first call carries 65536 bytes and declares 0 through the `uint16_t`
parameter. -/
theorem aligned_fragmenter_exact_counterexample :
    (8 ≤ 1500 - 20 ∧ (1500 - 20) % 8 = 0) ∧
    Server_send 1500 2 [⟨0, 20⟩, ⟨100, 2 ^ 32⟩]
      = ([⟨0, 0, [⟨100, 2 ^ 32⟩], false⟩], true) ∧
    ¬ (∀ f ∈ (Server_send 1500 2 [⟨0, 20⟩, ⟨100, 2 ^ 32⟩]).1,
        total_len f.payload = f.chunk ∧ total_len f.payload ≤ 1500 - 20) ∧
    (8 ≤ 65556 - 20 ∧ (65556 - 20) % 8 = 0) ∧
    Server_send 65556 3 [⟨0, 20⟩, ⟨100, 65537⟩]
      = ([⟨0, 0, [⟨100, 65536⟩], true⟩, ⟨0, 1, [⟨65636, 1⟩], false⟩], true) ∧
    ¬ (∀ f ∈ (Server_send 65556 3 [⟨0, 20⟩, ⟨100, 65537⟩]).1,
        total_len f.payload = f.chunk) := by
  decide

/-- Witness of `aligned_fragmenter_exact`: MTU 1500 and payload segments of
1480 and 100 bytes. -/
theorem aligned_fragmenter_exact_witness :
    ((8 ≤ 1500 - 20) ∧ (1500 - 20) % 8 = 0) ∧
    (Server_send 1500 1583 [⟨0, 20⟩, ⟨100, 1480⟩, ⟨5000, 100⟩]).2 = true ∧
    reassemble (fun a => a % 251)
        (Server_send 1500 1583 [⟨0, 20⟩, ⟨100, 1480⟩, ⟨5000, 100⟩]).1
      = iov_bytes (fun a => a % 251) [⟨100, 1480⟩, ⟨5000, 100⟩] ∧
    Server_send 1500 1583 [⟨0, 20⟩, ⟨100, 1480⟩, ⟨5000, 100⟩]
      = ([⟨0, 1480, [⟨100, 1480⟩, ⟨5000, 0⟩], true⟩, ⟨1480, 100, [⟨5000, 100⟩], false⟩],
          true) := by
  have h := aligned_fragmenter_exact (fun a => a % 251) 1500 1583 ⟨0, 20⟩
    [⟨100, 1480⟩, ⟨5000, 100⟩] (by decide) (by decide) (by decide) (by decide)
    (by decide) (by decide)
  exact ⟨by decide, h.1, h.2.1, by decide⟩

/-! ## Termination -/

/-- The loop makes at most one call per unit of fuel. -/
theorem frag_loop_length (M : Nat) :
    ∀ (n : Nat) (s r : List iovec) (c o : Nat), (frag_loop M n s r c o).1.length ≤ n := by
  intro n
  induction n with
  | zero => intro s r c o; rw [frag_loop_zero]; exact Nat.le_refl _
  | succ n ih =>
    intro s r c o
    cases r with
    | nil => rw [frag_loop_nil]; simp
    | cons v r =>
      by_cases h : M < (c + v.iov_len) % 2 ^ 32
      · rw [frag_loop_cut M n s r v c o h]
        simp only [List.length_cons]
        exact Nat.succ_le_succ (ih _ _ _ _)
      · rw [frag_loop_keep M n s r v c o h]
        exact Nat.le_succ_of_le (ih _ _ _ _)

/-- Every call made at a cut passes `max_frag` rounded down to a multiple of 8,
converted to the `uint16_t` parameter. -/
theorem frag_loop_cut_chunk (M : Nat) :
    ∀ (n : Nat) (s r : List iovec) (c o : Nat),
      ∀ f ∈ (frag_loop M n s r c o).1, f.mf = true → f.chunk = (M - M % 8) % 2 ^ 16 := by
  intro n
  induction n with
  | zero => intro s r c o f hf; simp [frag_loop_zero] at hf
  | succ n ih =>
    intro s r c o f hf hmf
    cases r with
    | nil =>
      simp only [frag_loop_nil, List.mem_singleton] at hf
      subst hf
      cases hmf
    | cons v r =>
      by_cases h : M < (c + v.iov_len) % 2 ^ 32
      · rw [frag_loop_cut M n s r v c o h] at hf
        rcases List.mem_cons.mp hf with hf | hf
        · subst hf; rfl
        · exact ih _ _ _ _ f hf hmf
      · rw [frag_loop_keep M n s r v c o h] at hf
        exact ih _ _ _ _ f hf hmf

/-- What a run of the loop from its initial state gives when `max_frag ≥ 8`. -/
theorem frag_loop_terminates (M : Nat) (hM : 8 ≤ M) (n : Nat) (segs : List iovec)
    (hsz : ∀ v ∈ segs, v.iov_len < 2 ^ 64)
    (hfuel : total_len segs + segs.length + 1 ≤ n) :
    (frag_loop M n [] segs 0 0).2 = true ∧
    (frag_loop M n [] segs 0 0).1.length ≤ n ∧
    (∀ f ∈ (frag_loop M n [] segs 0 0).1, f.mf = true →
      f.chunk = (M - M % 8) % 2 ^ 16 ∧ (M < 2 ^ 16 → 8 ≤ f.chunk)) := by
  refine ⟨frag_loop_returns M hM n [] segs 0 0 hsz (by omega), frag_loop_length M n _ _ _ _, ?_⟩
  intro f hf hmf
  have e := frag_loop_cut_chunk M n [] segs 0 0 f hf hmf
  refine ⟨e, fun h16 => ?_⟩
  rw [e]
  omega

/-- C19, as amended. The fragmentation loops terminate: for every finite list
of payload segments with `size_t` lengths, `Server::send` with any MTU such
that `max_frag = MTU - 20 ≥ 8`, and `Netserver_IPv6::send` (MTU 1500), make
finitely many calls (at most total length + number of segments + 1) and
return.  Each cut hands over `max_frag` rounded down to a multiple of 8, which
is at least 8 bytes; the call declares that number reduced to 16 bits, hence at
least 8 whenever `max_frag < 65536` (1448 for IPv6); and in any loop state a
cut leaves a remaining payload (running chunk plus the segments still to
iterate over) smaller by that amount. -/
theorem fragmentation_terminates (mtu fuel : Nat) (hdr : iovec) (segs : List iovec)
    (fuel6 : Nat) (hdr6 : iovec) (segs6 : List iovec) (iovlen : Nat)
    (hM : 8 ≤ max_frag_ipv4 mtu)
    (hsz : ∀ v ∈ segs, v.iov_len < 2 ^ 64)
    (hfuel : total_len segs + segs.length + 1 ≤ fuel)
    (hsz6 : ∀ v ∈ segs6, v.iov_len < 2 ^ 64)
    (hfuel6 : total_len segs6 + segs6.length + 1 ≤ fuel6) :
    ((Server_send mtu fuel (hdr :: segs)).2 = true ∧
      (Server_send mtu fuel (hdr :: segs)).1.length ≤ fuel ∧
      8 ≤ max_frag_ipv4 mtu - max_frag_ipv4 mtu % 8 ∧
      (∀ f ∈ (Server_send mtu fuel (hdr :: segs)).1, f.mf = true →
        f.chunk = (max_frag_ipv4 mtu - max_frag_ipv4 mtu % 8) % 2 ^ 16 ∧
        (max_frag_ipv4 mtu < 2 ^ 16 → 8 ≤ f.chunk))) ∧
    ((∃ plen iov, Netserver_IPv6_send fuel6 (hdr6 :: segs6) iovlen = Sent6.whole plen iov) ∨
      (∃ calls, Netserver_IPv6_send fuel6 (hdr6 :: segs6) iovlen = Sent6.fragmented calls true ∧
        calls.length ≤ fuel6 ∧ ∀ f ∈ calls, f.mf = true → f.chunk = 1448)) ∧
    (∀ (M c : Nat) (v : iovec) (r : List iovec), 8 ≤ M → v.iov_len < 2 ^ 64 →
      M < (c + v.iov_len) % 2 ^ 32 →
      total_len (⟨(v.iov_base + cut_len M c v) % 2 ^ 64,
          (v.iov_len + 2 ^ 64 - cut_len M c v) % 2 ^ 64⟩ :: r) + (M - M % 8)
        ≤ c + total_len (v :: r)) := by
  refine ⟨?_, ?_, ?_⟩
  · have h := frag_loop_terminates (max_frag_ipv4 mtu) hM fuel segs hsz hfuel
    exact ⟨h.1, h.2.1, by omega, h.2.2⟩
  · by_cases hfit : payload_length (hdr6 :: segs6) + 40 < 1500
    · left
      refine ⟨payload_length (hdr6 :: segs6) % 2 ^ 16, (hdr6 :: segs6).take iovlen, ?_⟩
      unfold Netserver_IPv6_send
      simp only
      rw [if_pos hfit]
    · right
      have h := frag_loop_terminates 1452 (by norm_num) fuel6 segs6 hsz6 hfuel6
      refine ⟨(frag_loop 1452 fuel6 [] segs6 0 0).1, ?_, h.2.1, ?_⟩
      · unfold Netserver_IPv6_send
        simp only
        rw [if_neg hfit]
        simp only [List.drop_succ_cons, List.drop_zero]
        rw [← h.1]
      · intro f hf hmf
        exact (h.2.2 f hf hmf).1
  · intro M c v r _ hv hcut
    simp only [total_len]
    rw [left_len_eq M c v hv]
    have : (c + v.iov_len) % 2 ^ 32 ≤ c + v.iov_len := Nat.mod_le _ _
    omega

/-- C19, counterexample to the claim as stated (any MTU with MTU - 20 ≥ 8):
with MTU 65556, `max_frag` is 65536, and on one payload segment of 70000 bytes
the cut hands over 65536 bytes in a call that carries the more-fragments flag
and declares 0 payload bytes through the `uint16_t` parameter. -/
theorem fragmentation_terminates_counterexample :
    8 ≤ max_frag_ipv4 65556 ∧
    Server_send 65556 3 [⟨0, 20⟩, ⟨100, 70000⟩]
      = ([⟨0, 0, [⟨100, 65536⟩], true⟩, ⟨0, 4464, [⟨65636, 4464⟩], false⟩], true) ∧
    ¬ (∀ f ∈ (Server_send 65556 3 [⟨0, 20⟩, ⟨100, 70000⟩]).1, f.mf = true → 0 < f.chunk) := by
  decide

/-- Witness of `fragmentation_terminates`: MTU 1500 and 3000 payload bytes on
both paths. -/
theorem fragmentation_terminates_witness :
    8 ≤ max_frag_ipv4 1500 ∧
    (Server_send 1500 3002 [⟨0, 20⟩, ⟨100, 3000⟩]).2 = true ∧
    (Server_send 1500 3002 [⟨0, 20⟩, ⟨100, 3000⟩]).1.length ≤ 3002 ∧
    ((∃ plen iov,
        Netserver_IPv6_send 3002 [⟨0, 40⟩, ⟨100, 3000⟩] 2 = Sent6.whole plen iov) ∨
      (∃ calls,
        Netserver_IPv6_send 3002 [⟨0, 40⟩, ⟨100, 3000⟩] 2 = Sent6.fragmented calls true ∧
        calls.length ≤ 3002 ∧ ∀ f ∈ calls, f.mf = true → f.chunk = 1448)) := by
  have h := fragmentation_terminates 1500 3002 ⟨0, 20⟩ [⟨100, 3000⟩]
    3002 ⟨0, 40⟩ [⟨100, 3000⟩] 2 (by decide) (by decide) (by decide) (by decide) (by decide)
  exact ⟨by decide, h.1.1, h.1.2.1, h.2.1⟩

end Froot
